import Mathlib

/-!
Verification of the email-fetch normalization and deduplication core.

This file gives a shallow embedding, in Lean 4, of the parts of the
repository `email-fetch/app` that the claims under review talk about:

* `app/utils.py`  — `extract_latest_reply_text` and its quoted-history
  marker machinery (embedded here on `List Char`, one definition per
  regular expression of the source, each translated to a deterministic
  scanner; Python's `re` multiline anchors are reflected by trying the
  line-anchored matchers exactly at every line-start offset);
* `app/parser.py` — `_message_id_or_hash`, `_pick_deal_id` / `DEAL_ID_RE`,
  and `_extract_best_text_and_html_flag` (library calls of the source —
  `hashlib.sha256`, `email.header` decoding, BeautifulSoup — appear as
  explicit function parameters of the embedding, since they are external
  to the repository);
* `app/state.py`  — `StateStore` (`_acquire_lock`, `_read`, `_write`,
  `add_many`), embedded as pure state transformers over an explicit
  filesystem model; filesystem and lock-contention nondeterminism is
  supplied by an oracle argument, and elapsed time advances by the
  source's fixed 100 ms sleep per failed lock-poll.

Definitions come first, theorems afterwards.
-/

/-! ### Python character classes

`pyIsSpace` embeds the character class `\s` of Python's `re` module with
`str`, and the default separator set of `str.strip` / `str.isspace`:
ASCII whitespace, the C1 separators, and the Unicode space separators. -/

def pyIsSpace (c : Char) : Bool :=
  c == ' ' || c == '\t' || c == '\n' || c == '\r' ||
  c == Char.ofNat 0x0b || c == Char.ofNat 0x0c ||
  (Nat.ble 0x1c c.toNat && Nat.ble c.toNat 0x1f) ||
  c.toNat == 0x85 || c.toNat == 0xa0 || c.toNat == 0x1680 ||
  (Nat.ble 0x2000 c.toNat && Nat.ble c.toNat 0x200a) ||
  c.toNat == 0x2028 || c.toNat == 0x2029 || c.toNat == 0x202f ||
  c.toNat == 0x205f || c.toNat == 0x3000

/-- Embedding of Python's `\w` (`re.UNICODE`) restricted to the scripts
that occur in the source's pattern tables: ASCII alphanumerics and
underscore, Latin-1 and Latin Extended-A letters, Greek, Cyrillic. -/
def pyIsWord (c : Char) : Bool :=
  c.isAlphanum || c == '_' ||
  (Nat.ble 0xc0 c.toNat && Nat.ble c.toNat 0x17f &&
    !(c.toNat == 0xd7) && !(c.toNat == 0xf7)) ||
  (Nat.ble 0x370 c.toNat && Nat.ble c.toNat 0x3ff) ||
  (Nat.ble 0x400 c.toNat && Nat.ble c.toNat 0x4ff)

/-- Case-folding used to embed `re.IGNORECASE` (and `str.lower`) over the
scripts occurring in the source's patterns: ASCII, Latin-1, Latin
Extended-A (Ł), Greek (including final sigma and tonos vowels) and
Cyrillic. Characters outside those ranges fold to themselves. -/
def pyFold (c : Char) : Char :=
  let n := c.toNat
  if 65 ≤ n ∧ n ≤ 90 then Char.ofNat (n + 32)
  else if 0xc0 ≤ n ∧ n ≤ 0xde ∧ n ≠ 0xd7 then Char.ofNat (n + 32)
  else if n = 0x141 then Char.ofNat 0x142
  else if 0x410 ≤ n ∧ n ≤ 0x42f then Char.ofNat (n + 32)
  else if n = 0x401 then Char.ofNat 0x451
  else if 0x391 ≤ n ∧ n ≤ 0x3a9 ∧ n ≠ 0x3a2 then Char.ofNat (n + 32)
  else if n = 0x3c2 then Char.ofNat 0x3c3
  else if n = 0x386 then Char.ofNat 0x3ac
  else if n = 0x388 then Char.ofNat 0x3ad
  else if n = 0x389 then Char.ofNat 0x3ae
  else if n = 0x38a then Char.ofNat 0x3af
  else if n = 0x38c then Char.ofNat 0x3cc
  else if n = 0x38e then Char.ofNat 0x3cd
  else if n = 0x38f then Char.ofNat 0x3ce
  else c

/-! ### Whitespace stripping (Python `str.strip` family) on `List Char` -/

def pyLstrip (s : List Char) : List Char := s.dropWhile pyIsSpace

def pyRstrip (s : List Char) : List Char :=
  ((s.reverse).dropWhile pyIsSpace).reverse

def pyStrip (s : List Char) : List Char := pyRstrip (pyLstrip s)

/-- `str.strip` lifted to `String`. -/
def pyStripStr (s : String) : String := ⟨pyStrip s.data⟩

/-! ### Newline handling

`normalizeNl` embeds `body_text.replace("\r\n", "\n").replace("\r", "\n")`
(step 1 of `extract_latest_reply_text`): every CRLF pair and every lone CR
becomes a single LF. -/

def normalizeNl : List Char → List Char
  | [] => []
  | [c] => if c = '\r' then ['\n'] else [c]
  | c :: c' :: cs =>
    if c = '\r' then
      if c' = '\n' then '\n' :: normalizeNl cs
      else '\n' :: normalizeNl (c' :: cs)
    else c :: normalizeNl (c' :: cs)

/-- `text.split("\n")` of Python: splitting on every newline, keeping
empty segments, so the result always has one more entry than the number
of newline characters. -/
def splitNl : List Char → List (List Char)
  | [] => [[]]
  | c :: cs =>
    if c = '\n' then [] :: splitNl cs
    else
      match splitNl cs with
      | l :: ls => (c :: l) :: ls
      | [] => [[c]]

/-- `"\n".join(lines)` of Python. -/
def joinNl : List (List Char) → List Char
  | [] => []
  | [l] => l
  | l :: l' :: ls => l ++ '\n' :: joinNl (l' :: ls)

/-- Character offsets of the line starts, as computed by
`_find_on_wrote_marker_index` (`offsets.append(pos); pos += len(ln)+1`). -/
def lineOffsets (pos : Nat) : List (List Char) → List Nat
  | [] => []
  | l :: ls => pos :: lineOffsets (pos + l.length + 1) ls

/-! ### Blank-line collapsing

`collapseNl` embeds `re.sub(r"\n{3,}", "\n\n", s)`: every maximal run of
three or more consecutive newlines becomes exactly two.  The accumulator
`n` of `collapseGo` counts the newline run currently being read. -/

def emitNl (n : Nat) : List Char :=
  if 3 ≤ n then ['\n', '\n'] else List.replicate n '\n'

def collapseGo : Nat → List Char → List Char
  | n, [] => emitNl n
  | n, c :: cs =>
    if c = '\n' then collapseGo (n + 1) cs
    else emitNl n ++ c :: collapseGo 0 cs

def collapseNl (s : List Char) : List Char := collapseGo 0 s

/-! ### Quoted-history markers (`app/utils.py`)

Every fixed pattern of `_MARKER_LINE_PATTERNS` has the shape
`^\s*>?\s*BODY` with flags `(?im)`.  With the multiline flag a match can
only begin at a line start, so the earliest `m.start()` over the whole
text is the first line-start offset whose suffix matches.  Each matcher
below consumes the suffix deterministically: since no keyword begins with
whitespace, `>` or `-`, the greedy `\s*` / `>?` / `-+` pieces admit a
single parse. `\s` may consume newlines, which the matchers inherit by
reading the raw character stream past line ends. -/

def skipWs (cs : List Char) : List Char := cs.dropWhile pyIsSpace

/-- The common pattern prefix `\s*>?\s*`. -/
def prefixQuoteWs (cs : List Char) : List Char :=
  match skipWs cs with
  | '>' :: rest => skipWs rest
  | rest => rest

/-- Case-insensitive literal match (embeds a regex literal under
`re.IGNORECASE`); returns the remaining input on success. -/
def matchCI : List Char → List Char → Option (List Char)
  | [], cs => some cs
  | _ :: _, [] => none
  | p :: ps, c :: cs => if pyFold c = pyFold p then matchCI ps cs else none

/-- Case-sensitive literal match (for `DEAL_ID_RE`, which has no
`IGNORECASE` flag). -/
def matchExact : List Char → List Char → Option (List Char)
  | [], cs => some cs
  | _ :: _, [] => none
  | p :: ps, c :: cs => if c = p then matchExact ps cs else none

/-- `\s*$` under the multiline flag: some prefix of the leading
whitespace ends the current line (next character is a newline or the
text ends). -/
def wsThenEol : List Char → Bool
  | [] => true
  | c :: cs => if c = '\n' then true else if pyIsSpace c then wsThenEol cs else false

/-- `-+` (or `-{k,}`): at least `k` leading dashes, consumed greedily. -/
def dashesAtLeast (k : Nat) (cs : List Char) : Option (List Char) :=
  let run := cs.takeWhile (fun c => c == '-')
  if k ≤ run.length then some (cs.drop run.length) else none

/-- A marker line of shape `^\s*>?\s*-{k,}\s*KW\s*-{k,}\s*$`. -/
def dashWrapped (k : Nat) (kw : List Char) (cs : List Char) : Bool :=
  match dashesAtLeast k (prefixQuoteWs cs) with
  | none => false
  | some cs1 =>
    match matchCI kw (skipWs cs1) with
    | none => false
    | some cs2 =>
      match dashesAtLeast k (skipWs cs2) with
      | none => false
      | some cs3 => wsThenEol cs3

/-- A marker line of shape `^\s*>?\s*KW\s*$`. -/
def bareKw (kw : List Char) (cs : List Char) : Bool :=
  match matchCI kw (prefixQuoteWs cs) with
  | none => false
  | some cs1 => wsThenEol cs1

/-- A reply-header-block starter `^\s*>?\s*KW\s+` (`KW` ends in `:`). -/
def headerKw (kw : List Char) (cs : List Char) : Bool :=
  match matchCI kw (prefixQuoteWs cs) with
  | none => false
  | some cs1 =>
    match cs1 with
    | c :: _ => pyIsSpace c
    | [] => false

/-- One matcher per entry of `_MARKER_LINE_PATTERNS`, in source order. -/
def anyFixedMarkerAt (cs : List Char) : Bool :=
  dashWrapped 1 ("original message").data cs ||
  dashWrapped 1 ("forwarded message").data cs ||
  bareKw ("begin forwarded message").data cs ||
  bareKw ("forwarded message").data cs ||
  dashWrapped 1 ("оригинално писмо").data cs ||
  bareKw ("препратено съобщение").data cs ||
  bareKw ("begin forwarded message:").data cs ||
  dashWrapped 2 ("original message").data cs ||
  headerKw ("from:").data cs ||
  headerKw ("sent:").data cs ||
  headerKw ("to:").data cs ||
  headerKw ("subject:").data cs ||
  headerKw ("date:").data cs ||
  headerKw ("от:").data cs ||
  headerKw ("до:").data cs ||
  headerKw ("относно:").data cs ||
  headerKw ("изпратено на:").data cs ||
  dashWrapped 5 ("forwarded message").data cs

/-- Earliest start offset of any fixed marker pattern: the first
line-start position whose suffix matches some pattern (the `re.search`
of each multiline pattern returns its leftmost match, and the loop in
`extract_latest_reply_text` keeps the minimum over the patterns). -/
def fixedIdx (text : List Char) : Option Nat :=
  ((lineOffsets 0 (splitNl text)).filter
    (fun p => anyFixedMarkerAt (text.drop p))).head?

/-! The `On ... wrote:` family (`_find_on_wrote_marker_index`). -/

def onWords : List (List Char) :=
  [("on").data, ("am").data, ("le").data, ("el").data, ("il").data,
   ("em").data, ("op").data, ("w dniu").data, ("в").data, ("στις").data]

/-- `^\s*>?\s*(On|Am|Le|El|Il|Em|Op|W dniu|В|Στις)\b` applied to one line. -/
def onLineMatch (ln : List Char) : Bool :=
  onWords.any (fun w =>
    match matchCI w (prefixQuoteWs ln) with
    | some rest =>
      match rest with
      | c :: _ => !(pyIsWord c)
      | [] => true
    | none => false)

/-- One alternative of the `wrote:` pattern matching the whole rest of a
stripped line (the pattern is `(...)\s*$` searched in `ln.strip()`, so a
match must reach the end of the stripped line). -/
def wroteStemColon (stem : List Char) (cs : List Char) : Bool :=
  match matchCI stem cs with
  | none => false
  | some rest => skipWs rest = [':']

/-- `napisał\s*\(?a\)?\s*:` — note the source requires the `a`. -/
def wrotePl (cs : List Char) : Bool :=
  match matchCI ("napisał").data cs with
  | none => false
  | some rest =>
    let rest1 := skipWs rest
    let rest2 := match rest1 with
      | '(' :: r => r
      | r => r
    match rest2 with
    | a :: rest3 =>
      if pyFold a = 'a' then
        let rest4 := match rest3 with
          | ')' :: r => r
          | r => r
        skipWs rest4 = [':']
      else false
    | [] => false

/-- `писал[а]?\s*:` (Russian, optional feminine ending). -/
def wroteRu (cs : List Char) : Bool :=
  match matchCI ("писал").data cs with
  | none => false
  | some rest =>
    let rest1 := match rest with
      | c :: r => if pyFold c = 'а' then r else rest
      | [] => rest
    skipWs rest1 = [':']

/-- Does one alternative of `_WROTE_WORDS` match from this position to
the end of the (stripped) line? -/
def wroteAt (cs : List Char) : Bool :=
  matchCI ("wrote:").data cs = some [] ||
  matchCI ("schrieb:").data cs = some [] ||
  wroteStemColon ("écrit").data cs ||
  wroteStemColon ("escribió").data cs ||
  wroteStemColon ("ha scritto").data cs ||
  wroteStemColon ("escreveu").data cs ||
  wroteStemColon ("schreef").data cs ||
  wrotePl cs ||
  wroteRu cs ||
  wroteStemColon ("έγραψε").data cs

/-- `wrote_re.search(ln)`: try every start position. -/
def wroteSearch : List Char → Bool
  | [] => false
  | c :: cs => wroteAt (c :: cs) || wroteSearch cs

/-- The wrote-word test the source applies to a line: search within the
stripped line. -/
def wroteLine (ln : List Char) : Bool := wroteSearch (pyStrip ln)

/-- The scan of `_find_on_wrote_marker_index`: first line matching the
opener whose own line, next line, or next-next line ends with a
wrote-word; returns that line's offset. -/
def onWroteGo : List (List Char) → List Nat → Option Nat
  | ln :: rest, off :: offs =>
    let w0 := wroteLine ln
    let w1 := match rest with
      | a :: _ => wroteLine a
      | [] => false
    let w2 := match rest with
      | _ :: b :: _ => wroteLine b
      | _ => false
    if onLineMatch ln && (w0 || w1 || w2) then some off
    else onWroteGo rest offs
  | _, _ => none

def onWroteIdx (text : List Char) : Option Nat :=
  onWroteGo (splitNl text) (lineOffsets 0 (splitNl text))

/-- Step 2 of `extract_latest_reply_text`: earliest cut over both marker
families (`cut_idx` starts from the `On ... wrote` hit and each fixed
pattern replaces it only when strictly earlier). -/
def cutIdx (text : List Char) : Option Nat :=
  match onWroteIdx text, fixedIdx text with
  | some a, some b => some (if b < a then b else a)
  | some a, none => some a
  | none, r => r

/-- `top_part`: the text before the cut point, or all of it. -/
def topPartOf (text : List Char) : List Char :=
  match cutIdx text with
  | none => text
  | some i => text.take i

/-- `line.lstrip().startswith(">")`. -/
def quoteLine (ln : List Char) : Bool :=
  match pyLstrip ln with
  | '>' :: _ => true
  | _ => false

/-- Shallow embedding of `extract_latest_reply_text` on `List Char`:
normalize newlines, cut at the earliest marker, drop quote-prefixed
lines, strip and collapse blank lines, with the fallback to the
un-stripped top part when the cleaned result is empty. -/
def extractLatestL (body : List Char) : List Char :=
  let text := normalizeNl body
  let top := topPartOf text
  let topTrimmed := pyStrip top
  let kept := (splitNl top).filter (fun l => !quoteLine l)
  let cleaned := collapseNl (pyStrip (joinNl kept))
  if cleaned = [] then collapseNl topTrimmed else cleaned

/-- `extract_latest_reply_text` on `String` (the `None` guard of the
source is outside this total-function embedding: callers pass
`body_text or ""`). -/
def extract_latest_reply_text (s : String) : String := ⟨extractLatestL s.data⟩

/-! ### Identity resolution (`app/parser.py`, `_message_id_or_hash`)

The SHA-256 digest of the raw bytes and the header decoding
(`str(make_header(decode_header(s)))`) are standard-library calls, so the
embedding takes them as parameters: `sha256hex` is the lowercase hex
digest of the raw byte stream and `decodeHdr` the header decoder (which
falls back to the identity on failure).  `midHeader` is the result of the
`msg.get("Message-ID") or ...` chain: `none` when every header lookup
returned `None` or an empty string (Python's `or` skips falsy values and
the subsequent `if mid else None` maps `""` to `None`). -/

def message_id_or_hash (sha256hex : String) (decodeHdr : String → String)
    (midHeader : Option String) : String :=
  let mid : Option String :=
    match midHeader with
    | none => none
    | some s => if s = ("" : String) then none else some (decodeHdr s)
  match mid with
  | some m => if m = ("" : String) then ("sha256:" : String) ++ sha256hex else pyStripStr m
  | none => ("sha256:" : String) ++ sha256hex

/-! ### Deal-tag extraction (`DEAL_ID_RE` and `_pick_deal_id`)

`DEAL_ID_RE = re.compile(r"\[Сделка:([A-Za-z0-9]{4,6})\]", re.UNICODE)` —
case-sensitive.  At a match position the greedy bounded repetition tries
6, then 5, then 4 alphanumerics before the closing bracket; `search`
returns the leftmost position admitting a match. -/

def isAsciiAlnum (c : Char) : Bool := c.isAlpha || c.isDigit

def dealPat : List Char := ("[Сделка:").data

/-- Try `[Сделка:([A-Za-z0-9]{k})\]` at the current position. -/
def dealTryLen (rest : List Char) (k : Nat) : Option (List Char) :=
  let g := rest.take k
  if g.length = k && g.all isAsciiAlnum && (rest.drop k).head? = some ']'
  then some g else none

/-- Try the full pattern at the current position (greedy `{4,6}`). -/
def dealTryAt (cs : List Char) : Option (List Char) :=
  match matchExact dealPat cs with
  | none => none
  | some rest =>
    match dealTryLen rest 6 with
    | some g => some g
    | none =>
      match dealTryLen rest 5 with
      | some g => some g
      | none => dealTryLen rest 4

/-- `DEAL_ID_RE.search(text)` returning `m.group(1)`: leftmost match. -/
def dealSearchL : List Char → Option (List Char)
  | [] => none
  | c :: cs =>
    match dealTryAt (c :: cs) with
    | some g => some g
    | none => dealSearchL cs

def dealSearch (s : String) : Option String :=
  (dealSearchL s.data).map (fun g => (⟨g⟩ : String))

/-- `_pick_deal_id(subject, body_text)`: the haystack list keeps only
truthy (non-`None`, non-empty) strings, subject first; the first
haystack with a match wins. -/
def pickFirstDeal : List String → Option String
  | [] => none
  | t :: ts =>
    match dealSearch t with
    | some g => some g
    | none => pickFirstDeal ts

def pick_deal_id (subject : Option String) (body_text : Option String) : Option String :=
  let hs1 : List String :=
    match subject with
    | some s => if s = ("" : String) then [] else [s]
    | none => []
  let hs2 : List String :=
    match body_text with
    | some b => if b = ("" : String) then [] else [b]
    | none => []
  pickFirstDeal (hs1 ++ hs2)

/-! ### Body extraction and the HTML flag
(`app/parser.py`, `_extract_best_text_and_html_flag`)

A MIME part is modelled by its content type, its `Content-Disposition`
header (empty string when the header is missing), and its payload:
`none` stands for Python's falsy `part.get_payload(decode=True)` —
`None`, a raised exception, or empty bytes — while `some s` is the text
of a non-empty payload after charset decoding (which, with
`errors="replace"` and the utf-8 fallback, always yields a string).
A message is either multipart (with `msg.walk()` giving the part list,
container parts included) or a single non-multipart part.  The
BeautifulSoup HTML-to-text conversion and its post-processing are
modelled by the parameter `htmlToText`. -/

structure MimePart where
  ctype : String
  disp : String
  payload : Option String
deriving DecidableEq, Repr

inductive PyMessage where
  | multipart (walk : List MimePart)
  | single (ctype : String) (payload : Option String)
deriving DecidableEq, Repr

def lowerStr (s : String) : String := ⟨s.data.map pyFold⟩

def listStartsWith : List Char → List Char → Bool
  | [], _ => true
  | _ :: _, [] => false
  | p :: ps, c :: cs => p == c && listStartsWith ps cs

/-- One iteration of the multipart walk loop: accumulate decoded
`text/plain` and `text/html` payload texts and the `has_html` flag. -/
def walkStep (acc : List String × List String × Bool) (p : MimePart) :
    List String × List String × Bool :=
  if listStartsWith ("attachment").data (lowerStr p.disp).data then acc
  else
    match p.payload with
    | none => acc
    | some txt =>
      if lowerStr p.ctype = ("text/plain" : String) then
        (acc.1 ++ [txt], acc.2.1, acc.2.2)
      else if lowerStr p.ctype = ("text/html" : String) then
        (acc.1, acc.2.1 ++ [txt], true)
      else acc

/-- `"\n".join(parts)` on `String`. -/
def joinLinesStr : List String → String
  | [] => ("" : String)
  | [s] => s
  | s :: s' :: ss => s ++ ("\n" : String) ++ joinLinesStr (s' :: ss)

/-- The tail of `_extract_best_text_and_html_flag`: choose the body text
from the accumulated parts and return it with the flag
(`text if text else None`). -/
def finalizeBest (htmlToText : String → String)
    (plains htmls : List String) (hasHtml : Bool) : Option String × Bool :=
  if plains ≠ [] then
    let t := pyStripStr (joinLinesStr plains)
    (if t = ("" : String) then none else some t, hasHtml)
  else if htmls ≠ [] then
    let t := htmlToText (joinLinesStr htmls)
    (if t = ("" : String) then none else some t, hasHtml)
  else (none, hasHtml)

def extract_best_text_and_html_flag (htmlToText : String → String)
    (m : PyMessage) : Option String × Bool :=
  match m with
  | .multipart parts =>
    let acc := parts.foldl walkStep ([], [], false)
    finalizeBest htmlToText acc.1 acc.2.1 acc.2.2
  | .single ctype payload =>
    if lowerStr ctype = ("text/plain" : String) then
      match payload with
      | some txt => finalizeBest htmlToText [txt] [] false
      | none => finalizeBest htmlToText [] [] false
    else if lowerStr ctype = ("text/html" : String) then
      match payload with
      | some txt => finalizeBest htmlToText [] [txt] true
      | none => finalizeBest htmlToText [] [] true
    else finalizeBest htmlToText [] [] false

/-! ### The durable dedup state store (`app/state.py`)

The durable document is `{"version": v, "seen": [...]}`.  The filesystem
is modelled by the contents of the state file and of the sibling
temporary file, plus a flag for the sentinel lock file held by this
store.  A file holds either a `complete` serialized document or a
`truncated` prefix of one (the half-written outcome of an interrupted
`json.dump`).  Failures of the filesystem and contention on the lock
file are supplied by an `Oracle`: `readOk` tells whether `open`/`read`
succeeds, `write` tells whether `json.dump` to the temporary file runs
to completion (or stops after `k` bytes) and whether `os.replace`
succeeds, and `busy i` tells whether some other process holds the lock
file at the `i`-th poll attempt. -/

structure Doc where
  version : Nat
  seen : List String
deriving DecidableEq, Repr

inductive FileContent where
  | complete (d : Doc)
  | truncated (d : Doc) (k : Nat)
deriving DecidableEq, Repr

structure FS where
  state : FileContent
  tmp : Option FileContent
  lock : Bool
deriving DecidableEq, Repr

inductive WriteResult where
  | ok
  | failDump (k : Nat)
  | failRename
deriving DecidableEq, Repr

structure Oracle where
  readOk : Bool
  write : WriteResult
  busy : Nat → Bool

inductive StoreErr where
  | timeoutLock
  | ioRead
  | ioWrite
  | parse
deriving DecidableEq, Repr

/-- The in-memory store: the filesystem, the snapshot `self._data`, and
the configured `lock_timeout_s`. -/
structure StoreSt where
  fs : FS
  data : Doc
  lockTimeoutS : Nat
deriving Repr

/-- The polling loop of `_acquire_lock`.  Attempt `i` tries the exclusive
create (`os.open(..., O_CREAT | O_EXCL)`, which fails iff the lock file
already exists, i.e. iff `busy i`); on failure it raises `TimeoutError`
when the elapsed time exceeds the timeout and otherwise sleeps 100 ms
and retries.  Time is idealized to exactly 100 ms per failed attempt, so
the elapsed time before attempt `i` is `100 * i` ms.  The structural
`fuel` argument only bounds the recursion; `acquireLock` passes enough
fuel that the `fuel = 0` branch is unreachable (see
`acquireGo_spec`). -/
def acquireGo (busy : Nat → Bool) (tmMs : Nat) : Nat → Nat → Bool
  | _, 0 => false
  | i, fuel + 1 =>
    if busy i then
      if tmMs < 100 * i then false
      else acquireGo busy tmMs (i + 1) fuel
    else true

def acquireLock (busy : Nat → Bool) (tmMs : Nat) : Bool :=
  acquireGo busy tmMs 0 (tmMs / 100 + 2)

/-- `self._read()`: `json.load` of the state file; an I/O error or a file
that is not a complete document fails. -/
def readDoc (fs : FS) (readOk : Bool) : Except StoreErr Doc :=
  if !readOk then .error .ioRead
  else
    match fs.state with
    | .complete d => .ok d
    | .truncated _ _ => .error .parse

/-- `self._write(data)`: dump to the temporary file, then atomically
rename it over the state file.  A dump interrupted after `k` bytes
leaves a truncated temporary file and the state file untouched; a failed
rename leaves a complete temporary file and the state file untouched;
only a successful rename replaces the state file, and then with the
complete new document. -/
def writeDoc (fs : FS) (d : Doc) (w : WriteResult) : FS × Option StoreErr :=
  match w with
  | .failDump k => ({ fs with tmp := some (.truncated d k) }, some .ioWrite)
  | .failRename => ({ fs with tmp := some (.complete d) }, some .ioWrite)
  | .ok => ({ fs with state := .complete d, tmp := none }, none)

/-- The loop of `add_many`: start from `set(data.get("seen", []))` and
insert each new key, tracking whether anything changed. -/
def unionAdd (seen : List String) (keys : List String) : List String × Bool :=
  keys.foldl
    (fun acc k => if k ∈ acc.1 then acc else (acc.1 ++ [k], true))
    (seen.dedup, false)

/-- `sorted(...)` of Python on strings: the sorted enumeration under the
lexicographic code-point order (Lean's `≤` on `String`). -/
def pySorted (l : List String) : List String := List.insertionSort (· ≤ ·) l

/-- The document written by a changed `add_many`: version forced to 1,
seen set replaced by the sorted union. -/
def updatedDoc (d : Doc) (keys : List String) : Doc :=
  ⟨1, pySorted (unionAdd d.seen keys).1⟩

/-- `StateStore.add_many(keys)` as a state transformer.  Falsy keys are
dropped first; an empty remainder returns before any locking.  The lock
is acquired (or the call fails with `TimeoutError` before touching any
state), the durable file is re-read fresh, the union is formed, and only
when it grew is the document written and the snapshot `self._data`
reassigned; the `finally` clause removes the lock file on every path
after acquisition. -/
def add_many (st : StoreSt) (keys0 : List String) (o : Oracle) :
    StoreSt × Option StoreErr :=
  let keys := keys0.filter (fun k => k ≠ ("" : String))
  if keys = [] then (st, none)
  else if acquireLock o.busy (1000 * st.lockTimeoutS) = false then
    (st, some .timeoutLock)
  else
    let fs1 : FS := { st.fs with lock := true }
    match readDoc fs1 o.readOk with
    | .error e => ({ st with fs := { fs1 with lock := false } }, some e)
    | .ok data =>
      let u := unionAdd data.seen keys
      if u.2 then
        let nd : Doc := ⟨1, pySorted u.1⟩
        match writeDoc fs1 nd o.write with
        | (fs2, some e) => ({ st with fs := { fs2 with lock := false } }, some e)
        | (fs2, none) =>
          ({ fs := { fs2 with lock := false }, data := nd,
             lockTimeoutS := st.lockTimeoutS }, none)
      else ({ st with fs := { fs1 with lock := false } }, none)

/-- The document a fresh store writes when the state file does not exist
(`self._write({"version": 1, "seen": []})` in `__init__`). -/
def initialDoc : Doc := ⟨1, []⟩

/-! ## Theorems

### Helper lemmas for the state store -/

/-- The invariant claimed for the persisted seen list. -/
def GoodSeen (l : List String) : Prop :=
  l.Sorted (· ≤ ·) ∧ l.Nodup ∧ ("" : String) ∉ l

lemma unionAdd_go_mem (keys : List String) :
    ∀ (acc : List String × Bool) (x : String),
      x ∈ (keys.foldl
        (fun acc k => if k ∈ acc.1 then acc else (acc.1 ++ [k], true)) acc).1 ↔
      x ∈ acc.1 ∨ x ∈ keys := by
  induction keys with
  | nil => intro acc x; simp
  | cons k ks ih =>
    intro acc x
    simp only [List.foldl_cons]
    by_cases hk : k ∈ acc.1
    · simp only [if_pos hk, ih]
      constructor
      · rintro (h | h)
        · exact Or.inl h
        · exact Or.inr (List.mem_cons_of_mem _ h)
      · rintro (h | h)
        · exact Or.inl h
        · rcases List.mem_cons.mp h with rfl | h
          · exact Or.inl hk
          · exact Or.inr h
    · simp only [if_neg hk, ih, List.mem_append, List.mem_singleton, List.mem_cons]
      tauto

lemma unionAdd_go_nodup (keys : List String) :
    ∀ (acc : List String × Bool), acc.1.Nodup →
      (keys.foldl
        (fun acc k => if k ∈ acc.1 then acc else (acc.1 ++ [k], true)) acc).1.Nodup := by
  induction keys with
  | nil => intro acc h; exact h
  | cons k ks ih =>
    intro acc h
    simp only [List.foldl_cons]
    by_cases hk : k ∈ acc.1
    · rw [if_pos hk]; exact ih _ h
    · rw [if_neg hk]
      refine ih _ ?_
      have : (acc.1 ++ [k]).Nodup ↔ (k :: acc.1).Nodup :=
        (List.perm_append_singleton k acc.1).nodup_iff
      exact this.mpr (List.nodup_cons.mpr ⟨hk, h⟩)

lemma unionAdd_go_noop (keys : List String) :
    ∀ (acc : List String × Bool), (∀ k ∈ keys, k ∈ acc.1) →
      keys.foldl
        (fun acc k => if k ∈ acc.1 then acc else (acc.1 ++ [k], true)) acc = acc := by
  induction keys with
  | nil => intro acc _; rfl
  | cons k ks ih =>
    intro acc h
    have hk : k ∈ acc.1 := h k (List.mem_cons_self k ks)
    simp only [List.foldl_cons, if_pos hk]
    exact ih _ (fun k' hk' => h k' (List.mem_cons_of_mem _ hk'))

lemma unionAdd_mem (seen keys : List String) (x : String) :
    x ∈ (unionAdd seen keys).1 ↔ x ∈ seen ∨ x ∈ keys := by
  unfold unionAdd
  rw [unionAdd_go_mem, List.mem_dedup]

lemma unionAdd_nodup (seen keys : List String) : (unionAdd seen keys).1.Nodup :=
  unionAdd_go_nodup keys _ (List.nodup_dedup seen)

lemma unionAdd_noop (seen keys : List String) (h : ∀ k ∈ keys, k ∈ seen) :
    unionAdd seen keys = (seen.dedup, false) := by
  unfold unionAdd
  exact unionAdd_go_noop keys _ (fun k hk => List.mem_dedup.mpr (h k hk))

lemma pySorted_perm (l : List String) : (pySorted l).Perm l :=
  List.perm_insertionSort _ l

lemma pySorted_sorted (l : List String) : (pySorted l).Sorted (· ≤ ·) :=
  List.sorted_insertionSort _ l

lemma goodSeen_updatedDoc (d : Doc) (keys : List String)
    (hd : ("" : String) ∉ d.seen) (hk : ("" : String) ∉ keys) :
    GoodSeen (updatedDoc d keys).seen := by
  refine ⟨pySorted_sorted _, ?_, ?_⟩
  · exact (pySorted_perm _).nodup_iff.mpr (unionAdd_nodup _ _)
  · intro hmem
    have := (pySorted_perm _).mem_iff.mp hmem
    rcases (unionAdd_mem _ _ _).mp this with h | h
    · exact hd h
    · exact hk h

lemma acquireGo_spec (busy : Nat → Bool) (tm : Nat) :
    ∀ fuel i, 100 * i ≤ tm + 100 → tm / 100 + 2 ≤ fuel + i →
      (acquireGo busy tm i fuel = true ↔
        ∃ j, i ≤ j ∧ busy j = false ∧
          ∀ m, i ≤ m → m < j → (busy m = true ∧ 100 * m ≤ tm)) := by
  intro fuel
  induction fuel with
  | zero =>
    intro i hreach hfuel
    exfalso
    have h1 : tm / 100 + 2 ≤ i := by simpa using hfuel
    have h2 : tm / 100 * 100 + tm % 100 = tm := Nat.div_add_mod' tm 100
    have h3 : tm % 100 < 100 := Nat.mod_lt _ (by omega)
    omega
  | succ fuel ih =>
    intro i hreach hfuel
    show (if busy i then if tm < 100 * i then false
        else acquireGo busy tm (i + 1) fuel else true) = true ↔ _
    by_cases hb : busy i
    · rw [if_pos hb]
      by_cases ht : tm < 100 * i
      · rw [if_pos ht]
        simp only [Bool.false_eq_true, false_iff]
        rintro ⟨j, hij, hj, hall⟩
        rcases Nat.lt_or_ge i j with hlt | hge
        · have := (hall i le_rfl hlt).2; omega
        · have : i = j := le_antisymm hij hge
          subst this
          rw [hb] at hj; cases hj
      · rw [if_neg ht]
        rw [ih (i + 1) (by omega) (by omega)]
        constructor
        · rintro ⟨j, hij, hj, hall⟩
          refine ⟨j, by omega, hj, fun m him hmj => ?_⟩
          rcases Nat.lt_or_ge m (i + 1) with hm | hm
          · have : m = i := by omega
            subst this
            exact ⟨hb, by omega⟩
          · exact hall m hm hmj
        · rintro ⟨j, hij, hj, hall⟩
          have hij' : i + 1 ≤ j := by
            rcases Nat.lt_or_ge i j with h | h
            · omega
            · have : i = j := le_antisymm hij h
              subst this
              rw [hb] at hj; cases hj
          exact ⟨j, hij', hj, fun m him hmj => hall m (by omega) hmj⟩
    · rw [if_neg hb]
      simp only [true_iff]
      exact ⟨i, le_rfl, by simpa using hb, fun m him hmi => absurd (lt_of_le_of_lt him hmi) (lt_irrefl _)⟩

/-- Characterization of the lock-acquisition loop: the lock is acquired
iff some poll attempt finds the lock file absent while every earlier
attempt found it present without yet exceeding the timeout. -/
lemma acquireLock_spec (busy : Nat → Bool) (tm : Nat) :
    acquireLock busy tm = true ↔
      ∃ j, busy j = false ∧ ∀ m, m < j → (busy m = true ∧ 100 * m ≤ tm) := by
  unfold acquireLock
  rw [acquireGo_spec busy tm _ 0 (by omega) (by omega)]
  constructor
  · rintro ⟨j, _, hj, hall⟩
    exact ⟨j, hj, fun m hm => hall m (Nat.zero_le m) hm⟩
  · rintro ⟨j, hj, hall⟩
    exact ⟨j, Nat.zero_le j, hj, fun m _ hm => hall m hm⟩

lemma acquireLock_free (tm : Nat) : acquireLock (fun _ => false) tm = true := by
  rw [acquireLock_spec]
  exact ⟨0, rfl, fun m hm => absurd hm (Nat.not_lt_zero m)⟩


/-- C2: If reading or writing the durable state file fails during
`add_many`, the operation fails (returns the error), the in-memory
snapshot `self._data` is unchanged, and the durable state file still
holds the old complete document; on every path the state file holds
either the old complete document or the new complete document (the
temporary file may be half-written, the state file never is, because
only the atomic `os.replace` of a completely dumped temporary file
touches it, and the snapshot is assigned only after `_write`
succeeds). -/
theorem claim_C2 (st : StoreSt) (keys : List String) (o : Oracle) (d : Doc)
    (hst : st.fs.state = .complete d) :
    (((add_many st keys o).2 = some .ioRead ∨ (add_many st keys o).2 = some .ioWrite) →
      ((add_many st keys o).1).data = st.data ∧
      ((add_many st keys o).1).fs.state = .complete d) ∧
    (((add_many st keys o).1).fs.state = .complete d ∨
      ((add_many st keys o).1).fs.state =
        .complete (updatedDoc d (keys.filter (fun k => k ≠ ("" : String))))) := by
  obtain ⟨⟨fstate, ftmp, flock⟩, sdata, tmo⟩ := st
  obtain ⟨rok, wres, busy⟩ := o
  replace hst : fstate = .complete d := hst
  subst hst
  unfold add_many
  by_cases h1 : keys.filter (fun k => k ≠ ("" : String)) = []
  · rw [if_pos h1]
    exact ⟨fun h => by rcases h with h | h <;> simp at h, Or.inl rfl⟩
  · rw [if_neg h1]
    by_cases h2 : acquireLock busy (1000 * tmo) = false
    · rw [if_pos h2]
      exact ⟨fun h => by rcases h with h | h <;> simp at h, Or.inl rfl⟩
    · rw [if_neg h2]
      cases rok with
      | false =>
        simp only [readDoc, Bool.not_false, if_true]
        exact ⟨fun _ => ⟨by trivial, by trivial⟩, Or.inl (by trivial)⟩
      | true =>
        simp only [readDoc, Bool.not_true, Bool.false_eq_true, if_false]
        by_cases h4 : (unionAdd d.seen (keys.filter (fun k => k ≠ ("" : String)))).2
        · simp only [h4, if_true]
          cases wres with
          | failDump k =>
            simp only [writeDoc]
            exact ⟨fun _ => ⟨by trivial, by trivial⟩, Or.inl (by trivial)⟩
          | failRename =>
            simp only [writeDoc]
            exact ⟨fun _ => ⟨by trivial, by trivial⟩, Or.inl (by trivial)⟩
          | ok =>
            simp only [writeDoc]
            exact ⟨fun h => by rcases h with h | h <;> simp at h, Or.inr (by trivial)⟩
        · simp only [h4, Bool.false_eq_true, if_false]
          exact ⟨fun h => by rcases h with h | h <;> simp at h, Or.inl (by trivial)⟩

/-- Closed witness for `claim_C2`: a concrete store whose write fails
mid-dump keeps its old complete document and its old snapshot. -/
theorem claim_C2_witness :
    (((add_many ⟨⟨.complete ⟨1, []⟩, none, false⟩, ⟨1, []⟩, 1⟩ [("k1" : String)]
        ⟨true, .failDump 3, fun _ => false⟩).2 = some .ioRead ∨
      (add_many ⟨⟨.complete ⟨1, []⟩, none, false⟩, ⟨1, []⟩, 1⟩ [("k1" : String)]
        ⟨true, .failDump 3, fun _ => false⟩).2 = some .ioWrite) →
      ((add_many ⟨⟨.complete ⟨1, []⟩, none, false⟩, ⟨1, []⟩, 1⟩ [("k1" : String)]
        ⟨true, .failDump 3, fun _ => false⟩).1).data = (⟨1, []⟩ : Doc) ∧
      ((add_many ⟨⟨.complete ⟨1, []⟩, none, false⟩, ⟨1, []⟩, 1⟩ [("k1" : String)]
        ⟨true, .failDump 3, fun _ => false⟩).1).fs.state = .complete ⟨1, []⟩) ∧
    (((add_many ⟨⟨.complete ⟨1, []⟩, none, false⟩, ⟨1, []⟩, 1⟩ [("k1" : String)]
        ⟨true, .failDump 3, fun _ => false⟩).1).fs.state = .complete ⟨1, []⟩ ∨
      ((add_many ⟨⟨.complete ⟨1, []⟩, none, false⟩, ⟨1, []⟩, 1⟩ [("k1" : String)]
        ⟨true, .failDump 3, fun _ => false⟩).1).fs.state =
        .complete (updatedDoc ⟨1, []⟩ (([("k1" : String)]).filter (fun k => k ≠ ("" : String))))) :=
  claim_C2 ⟨⟨.complete ⟨1, []⟩, none, false⟩, ⟨1, []⟩, 1⟩ [("k1" : String)]
    ⟨true, .failDump 3, fun _ => false⟩ ⟨1, []⟩ rfl

/-- C10: the persisted seen list never contains the empty string, is
sorted and duplicate-free: the fresh store writes the empty list, and
every `add_many` either leaves the document alone or writes
`sorted(set(old ∪ filtered keys))`, where falsy keys were discarded
up-front. -/
theorem claim_C10 :
    GoodSeen initialDoc.seen ∧
    ∀ (st : StoreSt) (keys : List String) (o : Oracle) (d d' : Doc),
      st.fs.state = .complete d → GoodSeen d.seen →
      ((add_many st keys o).1).fs.state = .complete d' → GoodSeen d'.seen := by
  constructor
  · exact ⟨List.sorted_nil, List.nodup_nil, List.not_mem_nil _⟩
  · intro st keys o d d' hst hgood hst'
    rcases (claim_C2 st keys o d hst).2 with h | h
    · rw [hst'] at h
      injection h with h
      rw [h]
      exact hgood
    · rw [hst'] at h
      injection h with h
      rw [h]
      refine goodSeen_updatedDoc d _ hgood.2.2 ?_
      intro hmem
      have := List.of_mem_filter hmem
      simp at this

/-- Closed witness for `claim_C10` at a concrete store and call. -/
theorem claim_C10_witness :
    GoodSeen initialDoc.seen ∧ GoodSeen (⟨1, ([] : List String)⟩ : Doc).seen :=
  ⟨claim_C10.1,
    claim_C10.2 ⟨⟨.complete ⟨1, []⟩, none, false⟩, ⟨1, []⟩, 1⟩ [("a" : String)]
      ⟨false, .ok, fun _ => false⟩ ⟨1, []⟩ ⟨1, []⟩ rfl
      ⟨List.sorted_nil, List.nodup_nil, List.not_mem_nil _⟩ (by decide)⟩

/-- C6: (1) the advisory lock is acquired by exclusively creating the
sentinel lock file, polling at 100 ms intervals — acquisition succeeds
exactly when some attempt finds the file absent and every earlier
attempt found it present without exceeding the configured timeout;
(2) when acquisition times out the whole call fails with the timeout
error and no state is touched; (3) on completion of the mutation,
success or failure, the lock file is absent. -/
theorem claim_C6 :
    (∀ (busy : Nat → Bool) (tm : Nat), acquireLock busy tm = true ↔
      ∃ j, busy j = false ∧ ∀ m, m < j → (busy m = true ∧ 100 * m ≤ tm)) ∧
    (∀ (st : StoreSt) (keys : List String) (o : Oracle),
      acquireLock o.busy (1000 * st.lockTimeoutS) = false →
      keys.filter (fun k => k ≠ ("" : String)) ≠ [] →
      add_many st keys o = (st, some .timeoutLock)) ∧
    (∀ (st : StoreSt) (keys : List String) (o : Oracle),
      st.fs.lock = false → ((add_many st keys o).1).fs.lock = false) := by
  refine ⟨acquireLock_spec, ?_, ?_⟩
  · intro st keys o hto hne
    unfold add_many
    rw [if_neg hne, if_pos hto]
  · intro st keys o hlk
    obtain ⟨⟨fstate, ftmp, flock⟩, sdata, tmo⟩ := st
    obtain ⟨rok, wres, busy⟩ := o
    replace hlk : flock = false := hlk
    subst hlk
    unfold add_many
    by_cases h1 : keys.filter (fun k => k ≠ ("" : String)) = []
    · rw [if_pos h1]
    · rw [if_neg h1]
      by_cases h2 : acquireLock busy (1000 * tmo) = false
      · rw [if_pos h2]
      · rw [if_neg h2]
        cases rok with
        | false => simp only [readDoc, Bool.not_false, if_true]
        | true =>
          simp only [readDoc, Bool.not_true, Bool.false_eq_true, if_false]
          cases fstate with
          | complete d =>
            by_cases h4 : (unionAdd d.seen (keys.filter (fun k => k ≠ ("" : String)))).2
            · simp only [h4, if_true]
              cases wres <;> simp only [writeDoc]
            · simp only [h4, Bool.false_eq_true, if_false]
          | truncated d k => rfl

/-- Closed witness for `claim_C6`: a lock busy on the first poll and
free on the second is acquired; a permanently busy lock times the call
out leaving the store untouched; the lock file is absent after a
successful call. -/
theorem claim_C6_witness :
    acquireLock (fun j => j == 0) 10000 = true ∧
    add_many ⟨⟨.complete ⟨1, []⟩, none, false⟩, ⟨1, []⟩, 1⟩ [("a" : String)]
      ⟨true, .ok, fun _ => true⟩ =
      (⟨⟨.complete ⟨1, []⟩, none, false⟩, ⟨1, []⟩, 1⟩, some .timeoutLock) ∧
    ((add_many ⟨⟨.complete ⟨1, []⟩, none, false⟩, ⟨1, []⟩, 1⟩ [("a" : String)]
      ⟨true, .ok, fun _ => false⟩).1).fs.lock = false :=
  ⟨(claim_C6.1 (fun j => j == 0) 10000).mpr
      ⟨1, by decide, fun m hm => by
        have : m = 0 := by omega
        subst this
        exact ⟨rfl, by omega⟩⟩,
    claim_C6.2.1 ⟨⟨.complete ⟨1, []⟩, none, false⟩, ⟨1, []⟩, 1⟩ [("a" : String)]
      ⟨true, .ok, fun _ => true⟩ (by decide) (by decide),
    claim_C6.2.2 ⟨⟨.complete ⟨1, []⟩, none, false⟩, ⟨1, []⟩, 1⟩ [("a" : String)]
      ⟨true, .ok, fun _ => false⟩ rfl⟩

/-- C3: with the lock uncontended and the filesystem healthy, a call to
`add_many` succeeds, and repeating it immediately with the same key set
returns the same store with no error — and since the second run is also
executed against an oracle with an arbitrary (possibly failing) write
outcome, the second call provably never reaches `_write`: it performs no
write.  Moreover `add_many` is a no-op for an empty (or all-falsy) key
list under any oracle, and a no-op (never reaching `_write`) when every
filtered key is already in the stored seen set. -/
theorem claim_C3 (st : StoreSt) (keys : List String) (d : Doc) (w : WriteResult)
    (hst : st.fs.state = .complete d) (hlk : st.fs.lock = false) :
    (add_many st keys ⟨true, .ok, fun _ => false⟩).2 = none ∧
    (∀ w', add_many ((add_many st keys ⟨true, .ok, fun _ => false⟩).1) keys
        ⟨true, w', fun _ => false⟩
        = ((add_many st keys ⟨true, .ok, fun _ => false⟩).1, none)) ∧
    (keys.filter (fun k => k ≠ ("" : String)) = [] →
      ∀ o, add_many st keys o = (st, none)) ∧
    ((∀ k ∈ keys.filter (fun k => k ≠ ("" : String)), k ∈ d.seen) →
      add_many st keys ⟨true, w, fun _ => false⟩ = (st, none)) := by
  obtain ⟨⟨fstate, ftmp, flock⟩, sdata, tmo⟩ := st
  replace hst : fstate = .complete d := hst
  replace hlk : flock = false := hlk
  subst hst
  subst hlk
  have hacq : ¬ (acquireLock (fun _ => false) (1000 * tmo) = false) := by
    rw [acquireLock_free]
    simp
  by_cases h1 : keys.filter (fun k => k ≠ ("" : String)) = []
  · have he : ∀ (o : Oracle),
        add_many ⟨⟨.complete d, ftmp, false⟩, sdata, tmo⟩ keys o =
          (⟨⟨.complete d, ftmp, false⟩, sdata, tmo⟩, none) := by
      intro o
      unfold add_many
      rw [if_pos h1]
    refine ⟨by rw [he], ?_, fun _ o => he o, fun _ => he _⟩
    intro w'
    rw [he, he]
  · by_cases h4 : (unionAdd d.seen (keys.filter (fun k => k ≠ ("" : String)))).2
    · have hr1 : add_many ⟨⟨.complete d, ftmp, false⟩, sdata, tmo⟩ keys
          ⟨true, .ok, fun _ => false⟩ =
          (⟨⟨.complete
              ⟨1, pySorted (unionAdd d.seen (keys.filter (fun k => k ≠ ("" : String)))).1⟩,
            none, false⟩,
            ⟨1, pySorted (unionAdd d.seen (keys.filter (fun k => k ≠ ("" : String)))).1⟩,
            tmo⟩, none) := by
        unfold add_many
        rw [if_neg h1, if_neg hacq]
        simp only [readDoc, Bool.not_true, Bool.false_eq_true, if_false]
        simp only [h4, if_true, writeDoc]
      have hmem2 : ∀ k ∈ keys.filter (fun k => k ≠ ("" : String)),
          k ∈ pySorted (unionAdd d.seen (keys.filter (fun k => k ≠ ("" : String)))).1 := by
        intro k hk
        exact (pySorted_perm _).mem_iff.mpr ((unionAdd_mem _ _ _).mpr (Or.inr hk))
      have hnoop2 := unionAdd_noop _ _ hmem2
      refine ⟨by rw [hr1], ?_, fun h => absurd h h1, ?_⟩
      · intro w'
        rw [hr1]
        unfold add_many
        rw [if_neg h1, if_neg hacq]
        simp only [readDoc, Bool.not_true, Bool.false_eq_true, if_false]
        rw [hnoop2]
        rfl
      · intro hall
        have := unionAdd_noop d.seen _ hall
        rw [this] at h4
        simp at h4
    · have hro : ∀ (w'' : WriteResult),
          add_many ⟨⟨.complete d, ftmp, false⟩, sdata, tmo⟩ keys
            ⟨true, w'', fun _ => false⟩ =
            (⟨⟨.complete d, ftmp, false⟩, sdata, tmo⟩, none) := by
        intro w''
        unfold add_many
        rw [if_neg h1, if_neg hacq]
        simp only [readDoc, Bool.not_true, Bool.false_eq_true, if_false]
        rw [if_neg h4]
      refine ⟨by rw [hro], ?_, fun h => absurd h h1, fun _ => hro w⟩
      intro w'
      rw [hro, hro]

/-- Closed witness for `claim_C3`: a store already containing `"a"` gets
`add_many ["a", "b"]` twice; the second call returns the stored state
unchanged with no error even though its write oracle would fail. -/
theorem claim_C3_witness :
    (add_many ⟨⟨.complete ⟨1, [("a" : String)]⟩, none, false⟩, ⟨1, [("a" : String)]⟩, 1⟩
        [("a" : String), ("b" : String)] ⟨true, .ok, fun _ => false⟩).2 = none ∧
    add_many ((add_many ⟨⟨.complete ⟨1, [("a" : String)]⟩, none, false⟩,
          ⟨1, [("a" : String)]⟩, 1⟩
        [("a" : String), ("b" : String)] ⟨true, .ok, fun _ => false⟩).1)
        [("a" : String), ("b" : String)] ⟨true, .failDump 0, fun _ => false⟩
      = ((add_many ⟨⟨.complete ⟨1, [("a" : String)]⟩, none, false⟩,
          ⟨1, [("a" : String)]⟩, 1⟩
        [("a" : String), ("b" : String)] ⟨true, .ok, fun _ => false⟩).1, none) :=
  ⟨(claim_C3 ⟨⟨.complete ⟨1, [("a" : String)]⟩, none, false⟩, ⟨1, [("a" : String)]⟩, 1⟩
      [("a" : String), ("b" : String)] ⟨1, [("a" : String)]⟩ .ok rfl rfl).1,
    (claim_C3 ⟨⟨.complete ⟨1, [("a" : String)]⟩, none, false⟩, ⟨1, [("a" : String)]⟩, 1⟩
      [("a" : String), ("b" : String)] ⟨1, [("a" : String)]⟩ .ok rfl rfl).2.1 (.failDump 0)⟩

/-! ### C1 — identity key -/

/-- A stand-in 64-hex-character digest for the counterexample (the
digest value is irrelevant: the code under test never reaches the hash
branch on this input). -/
def exampleDigest : String :=
  ("0e5751c026e543b2e8ab2eb06099daa1d1e5df47778f7787faab45cdf12fe3a8")

/-- C1 (counterexample to the claim as stated): a Message-ID header
consisting only of whitespace is truthy in Python, so
`_message_id_or_hash` takes the `mid.strip()` branch and returns the
empty string — not the `"sha256:..."` content hash the claim requires
for a header that is empty after trimming.  Header decoding is the
identity on a plain whitespace string. -/
theorem claim_C1_counterexample :
    message_id_or_hash exampleDigest (fun s => s) (some ("   ")) = ("" : String) ∧
    message_id_or_hash exampleDigest (fun s => s) (some ("   ")) ≠
      ("sha256:" : String) ++ exampleDigest := by
  constructor
  · rfl
  · decide

/-- C1 (amended): the identity key is the trimmed decoded Message-ID
whenever the decoded header string is non-empty *before* trimming —
even when it trims to the empty string, which then becomes the identity
key — and the `"sha256:" + hex(sha256(rawBytes))` fallback is used
exactly when the header is absent, the raw header is empty, or the
decoded header is empty. -/
theorem claim_C1 (h : String) (dec : String → String) (s : String) :
    message_id_or_hash h dec none = ("sha256:" : String) ++ h ∧
    message_id_or_hash h dec (some ("" : String)) = ("sha256:" : String) ++ h ∧
    (s ≠ ("" : String) → dec s = ("" : String) →
      message_id_or_hash h dec (some s) = ("sha256:" : String) ++ h) ∧
    (s ≠ ("" : String) → dec s ≠ ("" : String) →
      message_id_or_hash h dec (some s) = pyStripStr (dec s)) := by
  refine ⟨rfl, rfl, ?_, ?_⟩
  · intro hs hd
    simp only [message_id_or_hash]
    rw [if_neg hs, hd]
    rfl
  · intro hs hd
    simp only [message_id_or_hash]
    rw [if_neg hs]
    dsimp only
    rw [if_neg hd]

/-- Closed witness for `claim_C1`: a padded Message-ID is used verbatim
after trimming. -/
theorem claim_C1_witness :
    message_id_or_hash exampleDigest (fun s => s) (some (" <id@example.com> ")) =
      ("<id@example.com>" : String) :=
  ((claim_C1 exampleDigest (fun s => s) (" <id@example.com> ")).2.2.2
      (by decide) (by decide)).trans (by decide)

/-! ### C5 — the `hasHtml` flag -/

/-- The multipart walk sets `has_html` for a part exactly when the part
is not disposition-marked as an attachment, its decoded payload is
truthy, and its content type is `text/html`. -/
def htmlQual (p : MimePart) : Bool :=
  !(listStartsWith ("attachment").data (lowerStr p.disp).data) &&
  p.payload.isSome && (lowerStr p.ctype == ("text/html" : String))

lemma walkStep_flag (acc : List String × List String × Bool) (p : MimePart) :
    (walkStep acc p).2.2 = (acc.2.2 || htmlQual p) := by
  unfold walkStep htmlQual
  by_cases ha : listStartsWith ("attachment").data (lowerStr p.disp).data
  · rw [if_pos ha, ha]
    simp
  · rw [if_neg ha]
    cases hp : p.payload with
    | none => simp [ha, hp]
    | some txt =>
      dsimp only
      by_cases hplain : lowerStr p.ctype = ("text/plain" : String)
      · rw [if_pos hplain]
        have : (lowerStr p.ctype == ("text/html" : String)) = false := by
          rw [hplain]
          decide
        simp [this, ha, hp]
      · rw [if_neg hplain]
        by_cases hhtml : lowerStr p.ctype = ("text/html" : String)
        · rw [if_pos hhtml]
          have : (lowerStr p.ctype == ("text/html" : String)) = true := by
            rw [hhtml]
            decide
          simp [this, ha, hp]
        · rw [if_neg hhtml]
          have : (lowerStr p.ctype == ("text/html" : String)) = false :=
            beq_eq_false_iff_ne.mpr hhtml
          simp [this, ha, hp]

lemma walk_flag (parts : List MimePart) :
    ∀ acc : List String × List String × Bool,
      (parts.foldl walkStep acc).2.2 = (acc.2.2 || parts.any htmlQual) := by
  induction parts with
  | nil => intro acc; simp
  | cons p ps ih =>
    intro acc
    simp only [List.foldl_cons, List.any_cons]
    rw [ih, walkStep_flag, Bool.or_assoc]

lemma finalizeBest_flag (h2t : String → String) (pl hl : List String) (b : Bool) :
    (finalizeBest h2t pl hl b).2 = b := by
  unfold finalizeBest
  split_ifs <;> rfl

/-- C5 (counterexample to the claim as stated): in the multipart walk
the `if not payload: continue` guard runs *before* `has_html = True`, so
a message whose only `text/html` part has an empty or undecodable
payload comes back with `hasHtml = false`, although the claim demands
`true`. -/
theorem claim_C5_counterexample :
    (extract_best_text_and_html_flag (fun s => s)
      (.multipart [⟨("multipart/mixed"), (""), none⟩, ⟨("text/html"), (""), none⟩])).2
      = false := by
  decide

/-- C5 (amended): for a multipart message `hasHtml` is true iff some
walked part is a non-attachment `text/html` part with a truthy decoded
payload — independently of any `text/plain` parts and of which body was
chosen; for a non-multipart message `hasHtml` is true iff the message's
own content type is `text/html`, regardless of its payload. -/
theorem claim_C5 (h2t : String → String) (parts : List MimePart)
    (ct : String) (pl : Option String) :
    (extract_best_text_and_html_flag h2t (.multipart parts)).2 = parts.any htmlQual ∧
    (extract_best_text_and_html_flag h2t (.single ct pl)).2 =
      (lowerStr ct == ("text/html" : String)) := by
  constructor
  · show (finalizeBest h2t _ _ _).2 = _
    rw [finalizeBest_flag, walk_flag]
    simp
  · unfold extract_best_text_and_html_flag
    dsimp only
    by_cases hplain : lowerStr ct = ("text/plain" : String)
    · rw [if_pos hplain]
      have he : (lowerStr ct == ("text/html" : String)) = false := by
        rw [hplain]
        decide
      cases pl <;> rw [he] <;> rw [finalizeBest_flag]
    · rw [if_neg hplain]
      by_cases hhtml : lowerStr ct = ("text/html" : String)
      · rw [if_pos hhtml]
        have he : (lowerStr ct == ("text/html" : String)) = true := by
          rw [hhtml]
          decide
        cases pl <;> rw [he] <;> rw [finalizeBest_flag]
      · rw [if_neg hhtml]
        have he : (lowerStr ct == ("text/html" : String)) = false :=
          beq_eq_false_iff_ne.mpr hhtml
        rw [he, finalizeBest_flag]

/-! ### C7 — deal-tag extraction -/

lemma matchExact_eq_some : ∀ (pat cs rest : List Char),
    matchExact pat cs = some rest → cs = pat ++ rest := by
  intro pat
  induction pat with
  | nil =>
    intro cs rest h
    unfold matchExact at h
    injection h with h
  | cons p ps ih =>
    intro cs rest h
    cases cs with
    | nil => exact absurd h (by simp [matchExact])
    | cons c cs' =>
      unfold matchExact at h
      by_cases hc : c = p
      · rw [if_pos hc] at h
        subst hc
        rw [List.cons_append, ih cs' rest h]
      · rw [if_neg hc] at h
        cases h

lemma matchExact_append (pat rest : List Char) :
    matchExact pat (pat ++ rest) = some rest := by
  induction pat with
  | nil => rfl
  | cons p ps ih =>
    unfold matchExact
    rw [List.cons_append]
    simp only [if_pos rfl]
    exact ih

lemma dealTryLen_some (rest g : List Char) (k : Nat)
    (h : dealTryLen rest k = some g) :
    g.length = k ∧ g.all isAsciiAlnum = true ∧ ∃ suf, rest = g ++ ']' :: suf := by
  unfold dealTryLen at h
  dsimp only at h
  split at h
  case isTrue hcond =>
    injection h with h
    subst h
    simp only [Bool.and_eq_true, decide_eq_true_eq, beq_iff_eq] at hcond
    obtain ⟨⟨h1, h2⟩, h3⟩ := hcond
    refine ⟨h1, h2, ?_⟩
    cases hdk : rest.drop k with
    | nil => rw [hdk] at h3; cases h3
    | cons x t =>
      rw [hdk] at h3
      injection h3 with h3
      subst h3
      exact ⟨t, by rw [← hdk, List.take_append_drop]⟩
  case isFalse => cases h

lemma dealTryAt_some (cs g : List Char) (h : dealTryAt cs = some g) :
    (4 ≤ g.length ∧ g.length ≤ 6 ∧ g.all isAsciiAlnum = true) ∧
    ∃ suf, cs = dealPat ++ g ++ ']' :: suf := by
  unfold dealTryAt at h
  cases hm : matchExact dealPat cs with
  | none => rw [hm] at h; cases h
  | some rest =>
    rw [hm] at h
    dsimp only at h
    have hcs := matchExact_eq_some _ _ _ hm
    cases h6 : dealTryLen rest 6 with
    | some g6 =>
      rw [h6] at h
      injection h with h
      subst h
      obtain ⟨hl, ha, suf, hr⟩ := dealTryLen_some _ _ _ h6
      exact ⟨⟨by omega, by omega, ha⟩, suf, by rw [hcs, hr, List.append_assoc]⟩
    | none =>
      rw [h6] at h
      dsimp only at h
      cases h5 : dealTryLen rest 5 with
      | some g5 =>
        rw [h5] at h
        injection h with h
        subst h
        obtain ⟨hl, ha, suf, hr⟩ := dealTryLen_some _ _ _ h5
        exact ⟨⟨by omega, by omega, ha⟩, suf, by rw [hcs, hr, List.append_assoc]⟩
      | none =>
        rw [h5] at h
        dsimp only at h
        obtain ⟨hl, ha, suf, hr⟩ := dealTryLen_some _ _ _ h
        exact ⟨⟨by omega, by omega, ha⟩, suf, by rw [hcs, hr, List.append_assoc]⟩

lemma dealSearchL_sound : ∀ (cs g : List Char), dealSearchL cs = some g →
    (4 ≤ g.length ∧ g.length ≤ 6 ∧ g.all isAsciiAlnum = true) ∧
    ∃ pre suf, cs = pre ++ dealPat ++ g ++ ']' :: suf := by
  intro cs
  induction cs with
  | nil => intro g h; cases h
  | cons c cs' ih =>
    intro g h
    unfold dealSearchL at h
    cases hta : dealTryAt (c :: cs') with
    | some g0 =>
      rw [hta] at h
      dsimp only at h
      injection h with h
      subst h
      obtain ⟨hb, suf, heq⟩ := dealTryAt_some _ _ hta
      refine ⟨hb, [], suf, ?_⟩
      rw [heq]
      simp [List.append_assoc]
    | none =>
      rw [hta] at h
      dsimp only at h
      obtain ⟨hb, pre, suf, heq⟩ := ih g h
      refine ⟨hb, c :: pre, suf, ?_⟩
      rw [List.cons_append, heq]
      simp [List.append_assoc]

lemma dealTryLen_hit (g suf : List Char) (k : Nat) (hk : g.length = k)
    (ha : g.all isAsciiAlnum = true) :
    dealTryLen (g ++ ']' :: suf) k = some g := by
  subst hk
  unfold dealTryLen
  dsimp only
  rw [List.take_left, List.drop_left]
  simp [ha]

lemma dealTryLen_miss (g suf : List Char) (k : Nat) (hk : g.length < k) :
    dealTryLen (g ++ ']' :: suf) k = none := by
  unfold dealTryLen
  dsimp only
  have hmem : (']' : Char) ∈ (g ++ ']' :: suf).take k := by
    rw [List.take_append_eq_append_take]
    apply List.mem_append_right
    have h1 : k - g.length = (k - g.length - 1) + 1 := by omega
    rw [h1, List.take_succ_cons]
    exact List.mem_cons_self _ _
  have hall : ((g ++ ']' :: suf).take k).all isAsciiAlnum = false := by
    rcases Bool.eq_false_or_eq_true (((g ++ ']' :: suf).take k).all isAsciiAlnum) with ht | hf
    · exfalso
      have := List.all_eq_true.mp ht _ hmem
      simp [isAsciiAlnum] at this
    · exact hf
  rw [hall]
  simp

lemma dealTryAt_hit (g suf : List Char) (h4 : 4 ≤ g.length) (h6 : g.length ≤ 6)
    (ha : g.all isAsciiAlnum = true) :
    dealTryAt (dealPat ++ (g ++ ']' :: suf)) = some g := by
  unfold dealTryAt
  rw [matchExact_append]
  dsimp only
  have hl : g.length = 4 ∨ g.length = 5 ∨ g.length = 6 := by omega
  rcases hl with hl | hl | hl
  · rw [dealTryLen_miss g suf 6 (by omega)]
    dsimp only
    rw [dealTryLen_miss g suf 5 (by omega)]
    dsimp only
    exact dealTryLen_hit g suf 4 hl ha
  · rw [dealTryLen_miss g suf 6 (by omega)]
    dsimp only
    rw [dealTryLen_hit g suf 5 hl ha]
  · rw [dealTryLen_hit g suf 6 hl ha]

lemma dealSearchL_ne_none (cs : List Char) (h : ∃ g, dealTryAt cs = some g) :
    dealSearchL cs ≠ none := by
  obtain ⟨g, hg⟩ := h
  cases cs with
  | nil =>
    have hnone : dealTryAt ([] : List Char) = none := rfl
    rw [hnone] at hg
    cases hg
  | cons c cs' =>
    unfold dealSearchL
    rw [hg]
    simp

lemma dealSearchL_complete : ∀ (pre g suf : List Char),
    4 ≤ g.length → g.length ≤ 6 → g.all isAsciiAlnum = true →
    dealSearchL (pre ++ (dealPat ++ (g ++ ']' :: suf))) ≠ none := by
  intro pre
  induction pre with
  | nil =>
    intro g suf h4 h6 ha
    rw [List.nil_append]
    exact dealSearchL_ne_none _ ⟨g, dealTryAt_hit g suf h4 h6 ha⟩
  | cons c pre' ih =>
    intro g suf h4 h6 ha
    rw [List.cons_append]
    show dealSearchL (c :: (pre' ++ (dealPat ++ (g ++ ']' :: suf)))) ≠ none
    unfold dealSearchL
    cases hta : dealTryAt (c :: (pre' ++ (dealPat ++ (g ++ ']' :: suf)))) with
    | some g0 => simp
    | none =>
      dsimp only
      exact ih g suf h4 h6 ha

/-- C7: `dealTag` comes from the bracketed pattern `[Сделка:XXXXX]` with
4–6 alphanumerics captured: a returned group always comes from such a
bracketed occurrence (soundness), any text containing such an occurrence
yields a match (completeness), the decoded subject is searched before
the body and its match wins, and the three scenario cases hold. -/
theorem claim_C7 :
    (∀ (s : String) (b : Option String) (g : String), dealSearch s = some g →
      pick_deal_id (some s) b = some g) ∧
    (∀ (s b : String), dealSearch s = none →
      pick_deal_id (some s) (some b) = dealSearch b) ∧
    (∀ (cs g : List Char), dealSearchL cs = some g →
      (4 ≤ g.length ∧ g.length ≤ 6 ∧ g.all isAsciiAlnum = true) ∧
      ∃ pre suf, cs = pre ++ dealPat ++ g ++ ']' :: suf) ∧
    (∀ (pre g suf : List Char),
      4 ≤ g.length → g.length ≤ 6 → g.all isAsciiAlnum = true →
      dealSearchL (pre ++ (dealPat ++ (g ++ ']' :: suf))) ≠ none) ∧
    pick_deal_id (some ("Hello [Сделка:AB12C3]")) (some ("plain body")) =
      some ("AB12C3") ∧
    pick_deal_id (some ("No deal"))
      (some ("Текст с маркер [Сделка:ZZ9911] тук.")) = some ("ZZ9911") ∧
    pick_deal_id (some ("No deal")) (some ("no tag here")) = none := by
  refine ⟨?_, ?_, dealSearchL_sound, dealSearchL_complete, by decide, by decide, by decide⟩
  · intro s b g hg
    unfold pick_deal_id
    dsimp only
    by_cases hs : s = ("" : String)
    · exfalso
      subst hs
      have hnil : dealSearch ("" : String) = none := rfl
      rw [hnil] at hg
      cases hg
    · rw [if_neg hs]
      show pickFirstDeal (s :: _) = some g
      unfold pickFirstDeal
      rw [hg]
  · intro s b hnone
    unfold pick_deal_id
    dsimp only
    by_cases hs : s = ("" : String)
    · rw [if_pos hs]
      by_cases hb : b = ("" : String)
      · rw [if_pos hb]
        subst hb
        rfl
      · rw [if_neg hb]
        show pickFirstDeal (b :: []) = dealSearch b
        unfold pickFirstDeal
        cases hdb : dealSearch b with
        | some g => rfl
        | none => rfl
    · rw [if_neg hs]
      by_cases hb : b = ("" : String)
      · rw [if_pos hb]
        subst hb
        show pickFirstDeal (s :: []) = dealSearch ("" : String)
        unfold pickFirstDeal
        rw [hnone]
        rfl
      · rw [if_neg hb]
        show pickFirstDeal (s :: b :: []) = dealSearch b
        unfold pickFirstDeal
        rw [hnone]
        show pickFirstDeal (b :: []) = dealSearch b
        unfold pickFirstDeal
        cases hdb : dealSearch b with
        | some g => rfl
        | none => rfl

/-- Closed witness for `claim_C7`: the subject's tag wins over a body
that also carries a tag. -/
theorem claim_C7_witness :
    pick_deal_id (some ("Hi [Сделка:AB12C3]")) (some ("x [Сделка:QQ9911] y")) =
      some ("AB12C3") :=
  claim_C7.1 ("Hi [Сделка:AB12C3]") (some ("x [Сделка:QQ9911] y")) ("AB12C3") (by decide)

/-! ### Helper lemmas for the reply-text extractor -/

lemma splitNl_ne_nil : ∀ s : List Char, splitNl s ≠ [] := by
  intro s
  induction s with
  | nil => simp [splitNl]
  | cons c cs ih =>
    unfold splitNl
    by_cases hc : c = '\n'
    · rw [if_pos hc]
      simp
    · rw [if_neg hc]
      cases hsp : splitNl cs with
      | nil => exact absurd hsp ih
      | cons l ls => simp

lemma splitNl_cons_of_ne (c : Char) (cs : List Char) (hc : ¬c = '\n') :
    splitNl (c :: cs) =
      (c :: (splitNl cs).headI) :: (splitNl cs).tail := by
  cases hsp : splitNl cs with
  | nil => exact absurd hsp (splitNl_ne_nil cs)
  | cons l ls =>
    rw [splitNl, if_neg hc, hsp]
    rfl

lemma joinNl_splitNl : ∀ s : List Char, joinNl (splitNl s) = s := by
  intro s
  induction s with
  | nil => rfl
  | cons c cs ih =>
    by_cases hc : c = '\n'
    · subst hc
      show joinNl ([] :: splitNl cs) = '\n' :: cs
      cases hsp : splitNl cs with
      | nil => exact absurd hsp (splitNl_ne_nil cs)
      | cons l ls =>
        unfold joinNl
        rw [← hsp, ih]
        simp
    · cases hsp : splitNl cs with
      | nil => exact absurd hsp (splitNl_ne_nil cs)
      | cons l ls =>
        rw [splitNl_cons_of_ne c cs hc, hsp]
        rw [hsp] at ih
        cases ls with
        | nil =>
          show (c :: l) = c :: cs
          simpa using ih
        | cons l' ls' =>
          show (c :: l) ++ '\n' :: joinNl (l' :: ls') = c :: cs
          unfold joinNl at ih
          rw [List.cons_append, ih]

lemma mem_dropWhile_of_neg {c : Char} {p : Char → Bool} :
    ∀ {l : List Char}, c ∈ l → p c = false → c ∈ l.dropWhile p := by
  intro l
  induction l with
  | nil => intro h _; cases h
  | cons x xs ih =>
    intro hmem hp
    rw [List.dropWhile_cons]
    by_cases hx : p x = true
    · rw [if_pos hx]
      rcases List.mem_cons.mp hmem with rfl | hmem'
      · rw [hp] at hx; cases hx
      · exact ih hmem' hp
    · rw [if_neg hx]
      exact hmem

lemma mem_pyLstrip {c : Char} {s : List Char} (h : c ∈ s)
    (hc : pyIsSpace c = false) : c ∈ pyLstrip s :=
  mem_dropWhile_of_neg h hc

lemma mem_pyRstrip {c : Char} {s : List Char} (h : c ∈ s)
    (hc : pyIsSpace c = false) : c ∈ pyRstrip s := by
  unfold pyRstrip
  rw [List.mem_reverse]
  exact mem_dropWhile_of_neg (List.mem_reverse.mpr h) hc

lemma mem_pyStrip {c : Char} {s : List Char} (h : c ∈ s)
    (hc : pyIsSpace c = false) : c ∈ pyStrip s :=
  mem_pyRstrip (mem_pyLstrip h hc) hc

lemma mem_collapseGo {c : Char} (hc : ¬c = '\n') :
    ∀ (s : List Char) (n : Nat), c ∈ s → c ∈ collapseGo n s := by
  intro s
  induction s with
  | nil => intro n h; cases h
  | cons x xs ih =>
    intro n hmem
    unfold collapseGo
    by_cases hx : x = '\n'
    · rw [if_pos hx]
      rcases List.mem_cons.mp hmem with rfl | hmem'
      · exact absurd hx hc
      · exact ih _ hmem'
    · rw [if_neg hx]
      rcases List.mem_cons.mp hmem with rfl | hmem'
      · exact List.mem_append_right _ (List.mem_cons_self _ _)
      · exact List.mem_append_right _ (List.mem_cons_of_mem _ (ih _ hmem'))

lemma collapseNl_ne_nil_of_mem {c : Char} {s : List Char} (hc : ¬c = '\n')
    (h : c ∈ s) : collapseNl s ≠ [] := by
  intro he
  have := mem_collapseGo hc s 0 h
  rw [show collapseGo 0 s = collapseNl s from rfl, he] at this
  cases this

lemma all_ws_joinNl : ∀ ls : List (List Char),
    (∀ l ∈ ls, l.all pyIsSpace = true) → (joinNl ls).all pyIsSpace = true := by
  intro ls
  induction ls with
  | nil => intro _; rfl
  | cons l ls' ih =>
    intro h
    cases ls' with
    | nil =>
      show l.all pyIsSpace = true
      exact h l (List.mem_cons_self _ _)
    | cons l' ls'' =>
      show (l ++ '\n' :: joinNl (l' :: ls'')).all pyIsSpace = true
      simp only [List.all_append, List.all_cons, Bool.and_eq_true]
      exact ⟨h l (List.mem_cons_self _ _), by decide,
        ih (fun x hx => h x (List.mem_cons_of_mem _ hx))⟩

lemma pyLstrip_all_ws {s : List Char} (h : s.all pyIsSpace = true) :
    pyLstrip s = [] := by
  unfold pyLstrip
  rw [List.dropWhile_eq_nil_iff]
  intro x hx
  exact List.all_eq_true.mp h x hx

lemma pyStrip_all_ws {s : List Char} (h : s.all pyIsSpace = true) :
    pyStrip s = [] := by
  unfold pyStrip
  rw [pyLstrip_all_ws h]
  rfl

/-- A string with no leading and no trailing Python whitespace. -/
def Stripped (s : List Char) : Prop := pyLstrip s = s ∧ pyRstrip s = s

lemma dropWhile_idem (p : Char → Bool) : ∀ l : List Char,
    (l.dropWhile p).dropWhile p = l.dropWhile p := by
  intro l
  induction l with
  | nil => rfl
  | cons x xs ih =>
    rw [List.dropWhile_cons]
    by_cases hx : p x = true
    · rw [if_pos hx]
      exact ih
    · rw [if_neg hx, List.dropWhile_cons, if_neg hx]

lemma pyLstrip_eq_self_iff {s : List Char} :
    pyLstrip s = s ↔ ∀ c, s.head? = some c → pyIsSpace c = false := by
  cases s with
  | nil => simp [pyLstrip]
  | cons x xs =>
    unfold pyLstrip
    rw [List.dropWhile_cons]
    by_cases hx : pyIsSpace x = true
    · rw [if_pos hx]
      constructor
      · intro h
        exfalso
        have hlen : (xs.dropWhile pyIsSpace).length ≤ xs.length :=
          (List.dropWhile_sublist _).length_le
        have := congrArg List.length h
        simp at this
        omega
      · intro h
        have := h x rfl
        rw [hx] at this
        cases this
    · rw [if_neg hx]
      constructor
      · intro _ c hc
        injection hc with hc
        subst hc
        exact Bool.eq_false_iff.mpr hx
      · intro _
        rfl

lemma pyRstrip_eq_self_iff {s : List Char} :
    pyRstrip s = s ↔ ∀ c, s.getLast? = some c → pyIsSpace c = false := by
  unfold pyRstrip
  constructor
  · intro h c hc
    have hrev : s.reverse.dropWhile pyIsSpace = s.reverse := by
      have := congrArg List.reverse h
      rwa [List.reverse_reverse] at this
    have := pyLstrip_eq_self_iff.mp hrev
    exact this c (by rwa [List.head?_reverse])
  · intro h
    have hrev : pyLstrip s.reverse = s.reverse := by
      rw [pyLstrip_eq_self_iff]
      intro c hc
      exact h c (by rwa [List.head?_reverse] at hc)
    unfold pyLstrip at hrev
    rw [hrev, List.reverse_reverse]

lemma pyRstrip_decomp (s : List Char) :
    s = pyRstrip s ++ (s.reverse.takeWhile pyIsSpace).reverse ∧
    ((s.reverse.takeWhile pyIsSpace).reverse).all pyIsSpace = true := by
  constructor
  · conv_lhs => rw [← s.reverse_reverse]
    conv_lhs => rw [← List.takeWhile_append_dropWhile pyIsSpace s.reverse]
    rw [List.reverse_append]
    rfl
  · rw [List.all_reverse]
    rw [List.all_eq_true]
    intro x hx
    exact List.mem_takeWhile_imp hx

lemma stripped_nil : Stripped [] := ⟨rfl, rfl⟩

lemma stripped_pyStrip (s : List Char) : Stripped (pyStrip s) := by
  constructor
  · cases hps : pyStrip s with
    | nil => rfl
    | cons c cs =>
      rw [pyLstrip_eq_self_iff]
      intro c' hc'
      injection hc' with hc'
      subst hc'
      have hw : pyLstrip (pyLstrip s) = pyLstrip s := dropWhile_idem _ _
      have hhead := pyLstrip_eq_self_iff.mp hw
      obtain ⟨hdec, _⟩ := pyRstrip_decomp (pyLstrip s)
      have : pyLstrip s = (c :: cs) ++ (((pyLstrip s).reverse).takeWhile pyIsSpace).reverse := by
        rw [← hps]
        exact hdec
      apply hhead
      rw [this]
      rfl
  · show pyRstrip (pyRstrip (pyLstrip s)) = pyRstrip (pyLstrip s)
    unfold pyRstrip
    rw [List.reverse_reverse, dropWhile_idem]

lemma Stripped.strip_eq {s : List Char} (h : Stripped s) : pyStrip s = s := by
  unfold pyStrip
  rw [h.1, h.2]

lemma emitNl_ne_nil {n : Nat} (h : 1 ≤ n) : emitNl n ≠ [] := by
  unfold emitNl
  by_cases h3 : 3 ≤ n
  · rw [if_pos h3]
    simp
  · rw [if_neg h3]
    cases n with
    | zero => omega
    | succ m => simp [List.replicate_succ]

lemma collapseGo_ne_nil : ∀ (s : List Char) (n : Nat), s ≠ [] →
    collapseGo n s ≠ [] := by
  intro s
  induction s with
  | nil => intro n h; exact absurd rfl h
  | cons x xs ih =>
    intro n _
    unfold collapseGo
    by_cases hx : x = '\n'
    · rw [if_pos hx]
      cases xs with
      | nil => exact emitNl_ne_nil (by omega)
      | cons x' xs' => exact ih _ (by simp)
    · rw [if_neg hx]
      simp

lemma collapseNl_head_of {s : List Char} {c : Char} (hs : s.head? = some c)
    (hc : pyIsSpace c = false) : (collapseNl s).head? = some c := by
  cases s with
  | nil => cases hs
  | cons x xs =>
    have hxc : x = c := by injection hs
    subst hxc
    have hx : ¬x = '\n' := by
      intro h
      rw [h] at hc
      cases hc
    show (collapseGo 0 (x :: xs)).head? = some x
    unfold collapseGo
    rw [if_neg hx]
    rfl

lemma collapseGo_getLast? : ∀ (s : List Char) (n : Nat) (c : Char),
    s.getLast? = some c → ¬c = '\n' → (collapseGo n s).getLast? = some c := by
  intro s
  induction s with
  | nil => intro n c h _; cases h
  | cons x xs ih =>
    intro n c hlast hc
    cases xs with
    | nil =>
      have hx : x = c := by
        have : ([x] : List Char).getLast? = some x := rfl
        rw [this] at hlast
        injection hlast
      subst hx
      unfold collapseGo
      rw [if_neg hc]
      show (emitNl n ++ x :: collapseGo 0 []).getLast? = some x
      rw [List.getLast?_append]
      rfl
    | cons x' xs' =>
      rw [List.getLast?_cons_cons] at hlast
      unfold collapseGo
      by_cases hx : x = '\n'
      · rw [if_pos hx]
        exact ih _ _ hlast hc
      · rw [if_neg hx]
        rw [List.getLast?_append]
        have hZ := collapseGo_ne_nil (x' :: xs') 0 (by simp)
        have hih := ih 0 _ hlast hc
        cases hcg : collapseGo 0 (x' :: xs') with
        | nil => exact absurd hcg hZ
        | cons z zs =>
          rw [hcg] at hih
          show ((x :: z :: zs).getLast?).or (emitNl n).getLast? = some c
          rw [List.getLast?_cons_cons, hih]
          rfl

lemma stripped_collapseNl {s : List Char} (h : Stripped s) :
    Stripped (collapseNl s) := by
  constructor
  · rw [pyLstrip_eq_self_iff]
    intro c hc
    cases s with
    | nil =>
      have : collapseNl ([] : List Char) = [] := rfl
      rw [this] at hc
      cases hc
    | cons x xs =>
      have hx : pyIsSpace x = false := pyLstrip_eq_self_iff.mp h.1 x rfl
      have := collapseNl_head_of (s := x :: xs) rfl hx
      rw [this] at hc
      injection hc with hc
      subst hc
      exact hx
  · rw [pyRstrip_eq_self_iff]
    intro c hc
    cases hsl : s.getLast? with
    | none =>
      have hnil : s = [] := by
        cases s with
        | nil => rfl
        | cons x xs =>
          exfalso
          cases hx : (x :: xs).getLast? with
          | none =>
            have : (x :: xs) ≠ [] := by simp
            have := List.getLast?_eq_getLast (x :: xs) this
            rw [this] at hx
            cases hx
          | some y => rw [hx] at hsl; cases hsl
      subst hnil
      have : collapseNl ([] : List Char) = [] := rfl
      rw [this] at hc
      cases hc
    | some y =>
      have hy : pyIsSpace y = false := pyRstrip_eq_self_iff.mp h.2 y hsl
      have hyn : ¬y = '\n' := by
        intro hh
        subst hh
        cases hy
      have := collapseGo_getLast? s 0 y hsl hyn
      rw [show collapseGo 0 s = collapseNl s from rfl] at this
      rw [this] at hc
      injection hc with hc
      subst hc
      exact hy

/-- Scanner deciding that a string has no run of three (or more)
consecutive newlines; `k` counts the newline run read so far. -/
def noTripleNl : Nat → List Char → Bool
  | _, [] => true
  | k, c :: cs =>
    if c = '\n' then
      if 3 ≤ k + 1 then false else noTripleNl (k + 1) cs
    else noTripleNl 0 cs

lemma noTripleNl_emit_cons {c : Char} (hc : ¬c = '\n') (z : List Char) :
    ∀ n : Nat, noTripleNl 0 (emitNl n ++ c :: z) = noTripleNl 0 z := by
  intro n
  rcases Nat.lt_or_ge n 3 with h | h
  · interval_cases n <;>
      simp [emitNl, noTripleNl, hc, List.replicate_succ]
  · rw [emitNl, if_pos h]
    simp [noTripleNl, hc]

lemma noTripleNl_emit (n : Nat) : noTripleNl 0 (emitNl n) = true := by
  rcases Nat.lt_or_ge n 3 with h | h
  · interval_cases n <;> simp [emitNl, noTripleNl, List.replicate_succ]
  · rw [emitNl, if_pos h]
    simp [noTripleNl]

lemma noTripleNl_collapseGo : ∀ (s : List Char) (n : Nat),
    noTripleNl 0 (collapseGo n s) = true := by
  intro s
  induction s with
  | nil => intro n; exact noTripleNl_emit n
  | cons x xs ih =>
    intro n
    unfold collapseGo
    by_cases hx : x = '\n'
    · rw [if_pos hx]
      exact ih _
    · rw [if_neg hx]
      rw [noTripleNl_emit_cons hx _ n]
      exact ih 0

lemma noTripleNl_append_triple : ∀ (a : List Char) (k : Nat) (b : List Char),
    noTripleNl k (a ++ '\n' :: '\n' :: '\n' :: b) = false := by
  intro a
  induction a with
  | nil =>
    intro k b
    show noTripleNl k ('\n' :: '\n' :: '\n' :: b) = false
    simp only [noTripleNl, if_pos rfl]
    split_ifs with h1 h2 h3 <;> first | rfl | omega
  | cons x a' ih =>
    intro k b
    rw [List.cons_append]
    show noTripleNl k (x :: (a' ++ '\n' :: '\n' :: '\n' :: b)) = false
    unfold noTripleNl
    by_cases hx : x = '\n'
    · rw [if_pos hx]
      by_cases h1 : 3 ≤ k + 1
      · rw [if_pos h1]
      · rw [if_neg h1]
        exact ih _ _
    · rw [if_neg hx]
      exact ih _ _

lemma no_triple_of_noTripleNl {s : List Char} (h : noTripleNl 0 s = true) :
    ¬ ∃ a b, s = a ++ '\n' :: '\n' :: '\n' :: b := by
  rintro ⟨a, b, rfl⟩
  rw [noTripleNl_append_triple] at h
  cases h

/-- Every output of `extract_latest_reply_text` is the blank-line
collapse of a stripped string (either the cleaned joined lines or the
trimmed top part). -/
lemma extractLatestL_form (x : List Char) :
    ∃ z, extractLatestL x = collapseNl (pyStrip z) := by
  unfold extractLatestL
  dsimp only
  split
  · exact ⟨topPartOf (normalizeNl x), rfl⟩
  · exact ⟨joinNl ((splitNl (topPartOf (normalizeNl x))).filter (fun l => !quoteLine l)), rfl⟩

/-- C9: for every input string the extractor's result has no leading or
trailing (Python) whitespace — stripping it is the identity — and
contains no run of three or more consecutive newline characters, on the
normal path and the fallback path alike. -/
theorem claim_C9 (s : String) :
    pyStripStr (extract_latest_reply_text s) = extract_latest_reply_text s ∧
    ¬ ∃ a b, (extract_latest_reply_text s).data = a ++ '\n' :: '\n' :: '\n' :: b := by
  obtain ⟨z, hz⟩ := extractLatestL_form s.data
  have hdata : (extract_latest_reply_text s).data = collapseNl (pyStrip z) := by
    show (extractLatestL s.data : List Char) = _
    exact hz
  constructor
  · show (⟨pyStrip (extract_latest_reply_text s).data⟩ : String) = _
    rw [hdata, (stripped_collapseNl (stripped_pyStrip z)).strip_eq, ← hdata]
  · rw [hdata]
    exact no_triple_of_noTripleNl (noTripleNl_collapseGo _ 0)

lemma quoteLine_mem_gt {l : List Char} (h : quoteLine l = true) : '>' ∈ l := by
  unfold quoteLine at h
  cases hls : pyLstrip l with
  | nil => rw [hls] at h; cases h
  | cons x xs =>
    rw [hls] at h
    by_cases hx : x = '>'
    · subst hx
      have : '>' ∈ pyLstrip l := by rw [hls]; exact List.mem_cons_self _ _
      exact (List.dropWhile_sublist _).mem this
    · exfalso
      revert h
      split
      · rename_i heq
        injection heq with h1 _
        exact fun _ => hx h1
      · exact fun h => by cases h

lemma mem_joinNl {c : Char} : ∀ (ls : List (List Char)) (l : List Char),
    l ∈ ls → c ∈ l → c ∈ joinNl ls := by
  intro ls
  induction ls with
  | nil => intro l h; cases h
  | cons l' ls' ih =>
    intro l hmem hc
    cases ls' with
    | nil =>
      rcases List.mem_cons.mp hmem with rfl | h
      · exact hc
      · cases h
    | cons l'' ls'' =>
      show c ∈ l' ++ '\n' :: joinNl (l'' :: ls'')
      rcases List.mem_cons.mp hmem with rfl | h
      · exact List.mem_append_left _ hc
      · exact List.mem_append_right _ (List.mem_cons_of_mem _ (ih l h hc))

/-- C4: whenever the whole top part consists of quote-prefixed lines
(plus possibly whitespace-only ones, with at least one quote-prefixed),
quote-stripping empties the cleaned text and the function falls back to
the un-stripped top part, trimmed and with blank-line runs collapsed —
never the empty string —; and the scenario body from the claim yields
exactly its two quoted lines. -/
theorem claim_C4 (s : String)
    (hq : ∀ l ∈ splitNl (topPartOf (normalizeNl s.data)),
      quoteLine l = true ∨ l.all pyIsSpace = true)
    (hex : ∃ l ∈ splitNl (topPartOf (normalizeNl s.data)), quoteLine l = true) :
    extract_latest_reply_text s =
      (⟨collapseNl (pyStrip (topPartOf (normalizeNl s.data)))⟩ : String) ∧
    extract_latest_reply_text s ≠ ("" : String) ∧
    extract_latest_reply_text
      ("> quoted only line\n> second quoted\nOn Wed, Oct 22, 2025 at 8:19 PM Someone <x@y> wrote:\n> older\n")
      = ("> quoted only line\n> second quoted") := by
  have hkept : ∀ l ∈ (splitNl (topPartOf (normalizeNl s.data))).filter
      (fun l => !quoteLine l), l.all pyIsSpace = true := by
    intro l hl
    have hmem := List.mem_filter.mp hl
    rcases hq l hmem.1 with hquote | hws
    · exfalso
      have := hmem.2
      rw [hquote] at this
      cases this
    · exact hws
  have hcleaned0 : pyStrip (joinNl ((splitNl (topPartOf (normalizeNl s.data))).filter
      (fun l => !quoteLine l))) = [] :=
    pyStrip_all_ws (all_ws_joinNl _ hkept)
  have hmain : extract_latest_reply_text s =
      (⟨collapseNl (pyStrip (topPartOf (normalizeNl s.data)))⟩ : String) := by
    show (⟨extractLatestL s.data⟩ : String) = _
    unfold extractLatestL
    dsimp only
    rw [hcleaned0]
    rw [if_pos (show collapseNl ([] : List Char) = [] by rfl)]
  refine ⟨hmain, ?_, by decide⟩
  · obtain ⟨l, hl, hql⟩ := hex
    have hgt : '>' ∈ topPartOf (normalizeNl s.data) := by
      have h1 : '>' ∈ joinNl (splitNl (topPartOf (normalizeNl s.data))) :=
        mem_joinNl _ l hl (quoteLine_mem_gt hql)
      rwa [joinNl_splitNl] at h1
    have h2 : '>' ∈ pyStrip (topPartOf (normalizeNl s.data)) :=
      mem_pyStrip hgt (by decide)
    have h3 : collapseNl (pyStrip (topPartOf (normalizeNl s.data))) ≠ [] :=
      collapseNl_ne_nil_of_mem (by decide) h2
    rw [hmain]
    intro hcon
    apply h3
    have := congrArg String.data hcon
    exact this

/-- Closed witness for `claim_C4` at the scenario body of the claim. -/
theorem claim_C4_witness :
    extract_latest_reply_text
      ("> quoted only line\n> second quoted\nOn Wed, Oct 22, 2025 at 8:19 PM Someone <x@y> wrote:\n> older\n")
      = (⟨collapseNl (pyStrip (topPartOf (normalizeNl
          ("> quoted only line\n> second quoted\nOn Wed, Oct 22, 2025 at 8:19 PM Someone <x@y> wrote:\n> older\n").data)))⟩ : String) ∧
    extract_latest_reply_text
      ("> quoted only line\n> second quoted\nOn Wed, Oct 22, 2025 at 8:19 PM Someone <x@y> wrote:\n> older\n")
      ≠ ("" : String) :=
  ⟨(claim_C4
      ("> quoted only line\n> second quoted\nOn Wed, Oct 22, 2025 at 8:19 PM Someone <x@y> wrote:\n> older\n")
      (by decide) (by decide)).1,
    (claim_C4
      ("> quoted only line\n> second quoted\nOn Wed, Oct 22, 2025 at 8:19 PM Someone <x@y> wrote:\n> older\n")
      (by decide) (by decide)).2.1⟩

/-- `WsDel w u`: `w` is obtained from `u` by deleting whitespace
characters (the common effect of stripping and blank-line collapsing). -/
inductive WsDel : List Char → List Char → Prop where
  | nil : WsDel [] []
  | keep (c : Char) {w u : List Char} : WsDel w u → WsDel (c :: w) (c :: u)
  | del (c : Char) {w u : List Char} : pyIsSpace c = true → WsDel w u →
      WsDel w (c :: u)

lemma WsDel.rfl : ∀ s : List Char, WsDel s s := by
  intro s
  induction s with
  | nil => exact WsDel.nil
  | cons c cs ih => exact WsDel.keep c ih

lemma WsDel.append : ∀ {w1 u1 w2 u2 : List Char}, WsDel w1 u1 → WsDel w2 u2 →
    WsDel (w1 ++ w2) (u1 ++ u2) := by
  intro w1 u1 w2 u2 h1 h2
  induction h1 with
  | nil => exact h2
  | keep c _ ih => exact WsDel.keep c ih
  | del c hc _ ih => exact WsDel.del c hc ih

lemma WsDel.sublist : ∀ {w u : List Char}, WsDel w u → w.Sublist u := by
  intro w u h
  induction h with
  | nil => exact List.Sublist.slnil
  | keep c _ ih => exact List.Sublist.cons₂ c ih
  | del c _ _ ih => exact List.Sublist.cons c ih

lemma WsDel.trans : ∀ {v w u : List Char}, WsDel v w → WsDel w u → WsDel v u := by
  intro v w u hvw hwu
  induction hwu generalizing v with
  | nil =>
    cases hvw
    exact WsDel.nil
  | keep c hwu' ih =>
    cases hvw with
    | keep _ hv => exact WsDel.keep c (ih hv)
    | del _ hc hv => exact WsDel.del c hc (ih hv)
  | del c hc _ ih => exact WsDel.del c hc (ih hvw)

lemma wsDel_nil_ws : ∀ t : List Char, t.all pyIsSpace = true → WsDel [] t := by
  intro t
  induction t with
  | nil => intro _; exact WsDel.nil
  | cons c cs ih =>
    intro h
    rw [List.all_cons, Bool.and_eq_true] at h
    exact WsDel.del c h.1 (ih h.2)

lemma wsDel_append_ws (a t : List Char) (h : t.all pyIsSpace = true) :
    WsDel a (a ++ t) := by
  have := WsDel.append (WsDel.rfl a) (wsDel_nil_ws t h)
  simpa using this

lemma wsDel_pyLstrip (s : List Char) : WsDel (pyLstrip s) s := by
  unfold pyLstrip
  induction s with
  | nil => exact WsDel.nil
  | cons c cs ih =>
    rw [List.dropWhile_cons]
    by_cases hc : pyIsSpace c = true
    · rw [if_pos hc]
      exact WsDel.del c hc ih
    · rw [if_neg hc]
      exact WsDel.keep c (WsDel.rfl cs)

lemma wsDel_pyRstrip (s : List Char) : WsDel (pyRstrip s) s := by
  obtain ⟨hdec, hws⟩ := pyRstrip_decomp s
  have := wsDel_append_ws (pyRstrip s) _ hws
  rwa [← hdec] at this

lemma wsDel_pyStrip (s : List Char) : WsDel (pyStrip s) s :=
  WsDel.trans (wsDel_pyRstrip (pyLstrip s)) (wsDel_pyLstrip s)

lemma wsDel_emitNl (n : Nat) : WsDel (emitNl n) (List.replicate n '\n') := by
  unfold emitNl
  by_cases h3 : 3 ≤ n
  · rw [if_pos h3]
    have hsplit : List.replicate n '\n' =
        '\n' :: '\n' :: List.replicate (n - 2) '\n' := by
      have h2 : n = (n - 2) + 2 := by omega
      conv_lhs => rw [h2]
      rw [List.replicate_succ, List.replicate_succ]
    rw [hsplit]
    refine WsDel.keep _ (WsDel.keep _ ?_)
    refine wsDel_nil_ws _ ?_
    rw [List.all_eq_true]
    intro x hx
    rw [List.eq_of_mem_replicate hx]
    rfl
  · rw [if_neg h3]
    exact WsDel.rfl _

lemma wsDel_collapseGo : ∀ (s : List Char) (n : Nat),
    WsDel (collapseGo n s) (List.replicate n '\n' ++ s) := by
  intro s
  induction s with
  | nil =>
    intro n
    rw [List.append_nil]
    exact wsDel_emitNl n
  | cons x xs ih =>
    intro n
    unfold collapseGo
    by_cases hx : x = '\n'
    · rw [if_pos hx]
      subst hx
      have h1 := ih (n + 1)
      have heq : List.replicate (n + 1) '\n' ++ xs =
          List.replicate n '\n' ++ '\n' :: xs := by
        rw [List.replicate_succ', List.append_assoc]
        rfl
      rwa [heq] at h1
    · rw [if_neg hx]
      have h2 := ih 0
      simp only [List.replicate, List.nil_append] at h2
      exact WsDel.append (wsDel_emitNl n) (WsDel.keep x h2)

lemma wsDel_collapseNl (s : List Char) : WsDel (collapseNl s) s := by
  have := wsDel_collapseGo s 0
  simpa using this

/-- Scanner deciding that no line of the text is quote-prefixed
(`line.lstrip().startswith(">")`); the state `b` records whether the
scan is still inside the leading whitespace of the current line. -/
def noQ : Bool → List Char → Bool
  | _, [] => true
  | b, c :: cs =>
    if c = '\n' then noQ true cs
    else if b then
      if pyIsSpace c then noQ true cs
      else if c = '>' then false
      else noQ false cs
    else noQ false cs

lemma noQ_mono : ∀ s : List Char, noQ true s = true → noQ false s = true := by
  intro s
  induction s with
  | nil => intro _; rfl
  | cons c cs ih =>
    intro h
    unfold noQ at h ⊢
    by_cases hc : c = '\n'
    · rw [if_pos hc] at h ⊢
      exact h
    · rw [if_neg hc] at h ⊢
      rw [if_pos rfl] at h
      simp only [Bool.false_eq_true, if_false]
      by_cases hws : pyIsSpace c = true
      · rw [if_pos hws] at h
        exact ih h
      · rw [if_neg hws] at h
        by_cases hgt : c = '>'
        · rw [if_pos hgt] at h
          cases h
        · rw [if_neg hgt] at h
          exact h

lemma noQ_wsDel : ∀ {w u : List Char}, WsDel w u →
    ∀ b, noQ b u = true → noQ b w = true := by
  intro w u hwd
  induction hwd with
  | nil => intro b _; rfl
  | keep c hd ih =>
    intro b h
    unfold noQ at h ⊢
    by_cases hc : c = '\n'
    · rw [if_pos hc] at h ⊢
      exact ih true h
    · rw [if_neg hc] at h ⊢
      cases b with
      | false =>
        simp only [Bool.false_eq_true, if_false] at h ⊢
        exact ih false h
      | true =>
        rw [if_pos rfl] at h ⊢
        by_cases hws : pyIsSpace c = true
        · rw [if_pos hws] at h ⊢
          exact ih true h
        · rw [if_neg hws] at h ⊢
          by_cases hgt : c = '>'
          · rw [if_pos hgt] at h
            cases h
          · rw [if_neg hgt] at h ⊢
            exact ih false h
  | del c hws hd ih =>
    intro b h
    unfold noQ at h
    by_cases hc : c = '\n'
    · rw [if_pos hc] at h
      cases b with
      | true => exact ih true h
      | false => exact noQ_mono _ (ih true h)
    · rw [if_neg hc] at h
      cases b with
      | false =>
        simp only [Bool.false_eq_true, if_false] at h
        exact ih false h
      | true =>
        rw [if_pos rfl, if_pos hws] at h
        exact ih true h

def NoQuoted (s : List Char) : Prop :=
  ∀ l ∈ splitNl s, quoteLine l = false

lemma quoteLine_cons_ws {c : Char} (l : List Char) (hws : pyIsSpace c = true) :
    quoteLine (c :: l) = quoteLine l := by
  unfold quoteLine pyLstrip
  rw [List.dropWhile_cons, if_pos hws]

lemma quoteLine_cons_gt (l : List Char) : quoteLine ('>' :: l) = true := rfl

lemma quoteLine_cons_other {c : Char} (l : List Char)
    (hws : pyIsSpace c = false) (hgt : ¬c = '>') :
    quoteLine (c :: l) = false := by
  unfold quoteLine pyLstrip
  rw [List.dropWhile_cons, if_neg (by rw [hws]; simp)]
  split
  · rename_i heq
    injection heq with h1 _
    exact absurd h1 hgt
  · rfl

lemma noQ_bridge : ∀ s : List Char,
    (noQ true s = true ↔ NoQuoted s) ∧
    (noQ false s = true ↔ ∀ l ∈ (splitNl s).tail, quoteLine l = false) := by
  intro s
  induction s with
  | nil =>
    refine ⟨⟨fun _ l hl => ?_, fun _ => rfl⟩, ⟨fun _ l hl => ?_, fun _ => rfl⟩⟩
    · have : l = [] := by simpa [splitNl] using hl
      rw [this]
      rfl
    · simp [splitNl] at hl
  | cons c cs ih =>
    obtain ⟨ih1, ih2⟩ := ih
    by_cases hc : c = '\n'
    · subst hc
      have hsplit : splitNl ('\n' :: cs) = [] :: splitNl cs := rfl
      have hnoQt : noQ true ('\n' :: cs) = noQ true cs := rfl
      have hnoQf : noQ false ('\n' :: cs) = noQ true cs := rfl
      constructor
      · rw [hnoQt, ih1]
        unfold NoQuoted
        rw [hsplit]
        constructor
        · intro h l hl
          rcases List.mem_cons.mp hl with rfl | hl'
          · rfl
          · exact h l hl'
        · intro h l hl
          exact h l (List.mem_cons_of_mem _ hl)
      · rw [hnoQf, ih1]
        unfold NoQuoted
        rw [hsplit, List.tail_cons]
    · cases hsp : splitNl cs with
      | nil => exact absurd hsp (splitNl_ne_nil cs)
      | cons l0 ls =>
        have hsplit : splitNl (c :: cs) = (c :: l0) :: ls := by
          rw [splitNl_cons_of_ne c cs hc, hsp]
          rfl
        by_cases hws : pyIsSpace c = true
        · have hq : quoteLine (c :: l0) = quoteLine l0 := quoteLine_cons_ws l0 hws
          have ht : noQ true (c :: cs) = noQ true cs := by
            conv_lhs => rw [noQ]
            rw [if_neg hc, if_pos rfl, if_pos hws]
          have hf : noQ false (c :: cs) = noQ false cs := by
            conv_lhs => rw [noQ]
            rw [if_neg hc]
            simp
          constructor
          · rw [ht, ih1]
            unfold NoQuoted
            rw [hsplit, hsp]
            constructor
            · intro h l hl
              rcases List.mem_cons.mp hl with rfl | hl'
              · rw [hq]
                exact h l0 (List.mem_cons_self _ _)
              · exact h l (List.mem_cons_of_mem _ hl')
            · intro h l hl
              rcases List.mem_cons.mp hl with heq | hl'
              · rw [heq, ← hq]
                exact h (c :: l0) (List.mem_cons_self _ _)
              · exact h l (List.mem_cons_of_mem _ hl')
          · rw [hf, ih2, hsplit, hsp, List.tail_cons, List.tail_cons]
        · by_cases hgt : c = '>'
          · subst hgt
            have ht : noQ true ('>' :: cs) = false := by
              conv_lhs => rw [noQ]
              rw [if_neg hc, if_pos rfl, if_neg hws, if_pos rfl]
            have hf : noQ false ('>' :: cs) = noQ false cs := by
              conv_lhs => rw [noQ]
              rw [if_neg hc]
              simp
            constructor
            · rw [ht]
              constructor
              · intro h
                cases h
              · intro h
                exfalso
                have := h ('>' :: l0) (by rw [hsplit]; exact List.mem_cons_self _ _)
                rw [quoteLine_cons_gt] at this
                cases this
            · rw [hf, ih2, hsplit, hsp, List.tail_cons, List.tail_cons]
          · have hq : quoteLine (c :: l0) = false :=
              quoteLine_cons_other l0 (Bool.eq_false_iff.mpr hws) hgt
            have ht : noQ true (c :: cs) = noQ false cs := by
              conv_lhs => rw [noQ]
              rw [if_neg hc, if_pos rfl, if_neg hws, if_neg hgt]
            have hf : noQ false (c :: cs) = noQ false cs := by
              conv_lhs => rw [noQ]
              rw [if_neg hc]
              simp
            constructor
            · rw [ht, ih2, hsp, List.tail_cons]
              unfold NoQuoted
              rw [hsplit]
              constructor
              · intro h l hl
                rcases List.mem_cons.mp hl with rfl | hl'
                · exact hq
                · exact h l hl'
              · intro h l hl
                exact h l (List.mem_cons_of_mem _ hl)
            · rw [hf, ih2, hsplit, hsp, List.tail_cons, List.tail_cons]

lemma normalizeNl_noCR : ∀ s : List Char, '\r' ∉ normalizeNl s
  | [] => by simp [normalizeNl]
  | [c] => by
    by_cases hc : c = '\r'
    · simp [normalizeNl, hc]
    · simp [normalizeNl, hc]
      intro h
      exact hc h.symm
  | c :: c' :: cs => by
    have ih1 := normalizeNl_noCR cs
    have ih2 := normalizeNl_noCR (c' :: cs)
    by_cases hc : c = '\r'
    · by_cases hc' : c' = '\n'
      · simp only [normalizeNl, if_pos hc, if_pos hc']
        intro h
        rcases List.mem_cons.mp h with h1 | h1
        · cases h1
        · exact ih1 h1
      · simp only [normalizeNl, if_pos hc, if_neg hc']
        intro h
        rcases List.mem_cons.mp h with h1 | h1
        · cases h1
        · exact ih2 h1
    · simp only [normalizeNl, if_neg hc]
      intro h
      rcases List.mem_cons.mp h with h1 | h1
      · exact hc h1.symm
      · exact ih2 h1

lemma normalizeNl_eq_self : ∀ s : List Char, '\r' ∉ s → normalizeNl s = s
  | [] => fun _ => rfl
  | [c] => fun h => by
    have hc : ¬c = '\r' := by
      intro hh
      exact h (by rw [hh]; exact List.mem_cons_self _ _)
    simp [normalizeNl, hc]
  | c :: c' :: cs => fun h => by
    have hc : ¬c = '\r' := by
      intro hh
      exact h (by rw [hh]; exact List.mem_cons_self _ _)
    simp only [normalizeNl, if_neg hc]
    rw [normalizeNl_eq_self (c' :: cs) (fun hm => h (List.mem_cons_of_mem _ hm))]

lemma topPartOf_no_marker {t : List Char} (h : cutIdx t = none) :
    topPartOf t = t := by
  unfold topPartOf
  rw [h]

/-- When neither marker family fires and no line is quote-prefixed, the
extractor returns the normalized input, stripped and blank-line
collapsed (the fallback and normal paths agree on this value). -/
lemma extractLatestL_no_marker (x : List Char)
    (hcut : cutIdx (normalizeNl x) = none)
    (hnq : NoQuoted (normalizeNl x)) :
    extractLatestL x = collapseNl (pyStrip (normalizeNl x)) := by
  unfold extractLatestL
  dsimp only
  rw [topPartOf_no_marker hcut]
  have hfil : (splitNl (normalizeNl x)).filter (fun l => !quoteLine l) =
      splitNl (normalizeNl x) :=
    List.filter_eq_self.mpr (fun l hl => by rw [hnq l hl]; rfl)
  rw [hfil, joinNl_splitNl]
  exact ite_self _

lemma collapseGo_of_noTriple : ∀ (s : List Char) (n : Nat), n ≤ 2 →
    noTripleNl n s = true → collapseGo n s = List.replicate n '\n' ++ s := by
  intro s
  induction s with
  | nil =>
    intro n hn _
    show emitNl n = List.replicate n '\n' ++ []
    rw [List.append_nil]
    unfold emitNl
    rw [if_neg (by omega)]
  | cons x xs ih =>
    intro n hn h
    unfold collapseGo
    by_cases hx : x = '\n'
    · rw [if_pos hx]
      subst hx
      unfold noTripleNl at h
      rw [if_pos rfl] at h
      by_cases h3 : 3 ≤ n + 1
      · rw [if_pos h3] at h
        cases h
      · rw [if_neg h3] at h
        rw [ih (n + 1) (by omega) h]
        rw [List.replicate_succ', List.append_assoc]
        rfl
    · rw [if_neg hx]
      unfold noTripleNl at h
      rw [if_neg hx] at h
      rw [ih 0 (by omega) h]
      unfold emitNl
      rw [if_neg (by omega)]
      rfl

lemma collapseNl_idem (s : List Char) :
    collapseNl (collapseNl s) = collapseNl s := by
  have := collapseGo_of_noTriple (collapseNl s) 0 (by omega)
    (noTripleNl_collapseGo s 0)
  simpa using this

/-- C8 (counterexample to the claim as stated): the body
`"On foo\n\n\n\nwrote:"` contains no marker — the opener line and the
`wrote:` line are four lines apart, beyond the two-line window — and no
quote-prefixed line, yet collapsing the blank-line run to two newlines
brings them within the window, so a marker fires in the output and the
second application cuts everything away: the function is not idempotent
on this marker-free input. -/
theorem claim_C8_counterexample :
    cutIdx (normalizeNl ("On foo\n\n\n\nwrote:").data) = none ∧
    (∀ l ∈ splitNl (normalizeNl ("On foo\n\n\n\nwrote:").data),
      quoteLine l = false) ∧
    extract_latest_reply_text (extract_latest_reply_text ("On foo\n\n\n\nwrote:")) ≠
      extract_latest_reply_text ("On foo\n\n\n\nwrote:") := by
  refine ⟨by decide, by decide, by decide⟩

/-- C8 (amended): `extract_latest_reply_text` is idempotent on inputs
with no quoted lines and no markers, provided its own output also
contains no markers (the counterexample shows blank-line collapsing can
create an `On ... wrote:` marker in the output, which is the only way
idempotence fails under the original hypotheses). -/
theorem claim_C8 (x : String)
    (hcut : cutIdx (normalizeNl x.data) = none)
    (hnq : ∀ l ∈ splitNl (normalizeNl x.data), quoteLine l = false)
    (hcut2 : cutIdx ((extract_latest_reply_text x).data) = none) :
    extract_latest_reply_text (extract_latest_reply_text x) =
      extract_latest_reply_text x := by
  have h1 : extractLatestL x.data = collapseNl (pyStrip (normalizeNl x.data)) :=
    extractLatestL_no_marker x.data hcut hnq
  have hwdata : (extract_latest_reply_text x).data =
      collapseNl (pyStrip (normalizeNl x.data)) := h1
  have hwd : WsDel (collapseNl (pyStrip (normalizeNl x.data))) (normalizeNl x.data) :=
    WsDel.trans (wsDel_collapseNl _) (wsDel_pyStrip _)
  have hnoCRw : '\r' ∉ collapseNl (pyStrip (normalizeNl x.data)) :=
    fun hm => normalizeNl_noCR x.data (hwd.sublist.mem hm)
  have hnormw : normalizeNl (collapseNl (pyStrip (normalizeNl x.data))) =
      collapseNl (pyStrip (normalizeNl x.data)) :=
    normalizeNl_eq_self _ hnoCRw
  have hnqu : noQ true (normalizeNl x.data) = true :=
    (noQ_bridge (normalizeNl x.data)).1.mpr hnq
  have hnqw : NoQuoted (collapseNl (pyStrip (normalizeNl x.data))) :=
    (noQ_bridge _).1.mp (noQ_wsDel hwd true hnqu)
  have hcut2' : cutIdx (normalizeNl (collapseNl (pyStrip (normalizeNl x.data)))) = none := by
    rw [hnormw, ← hwdata]
    exact hcut2
  have h2 : extractLatestL (collapseNl (pyStrip (normalizeNl x.data))) =
      collapseNl (pyStrip (normalizeNl (collapseNl (pyStrip (normalizeNl x.data))))) :=
    extractLatestL_no_marker _ hcut2' (by rw [hnormw]; exact hnqw)
  have hsw : pyStrip (collapseNl (pyStrip (normalizeNl x.data))) =
      collapseNl (pyStrip (normalizeNl x.data)) :=
    (stripped_collapseNl (stripped_pyStrip _)).strip_eq
  have h3 : extractLatestL (collapseNl (pyStrip (normalizeNl x.data))) =
      collapseNl (pyStrip (normalizeNl x.data)) := by
    rw [h2, hnormw, hsw, collapseNl_idem]
  show (⟨extractLatestL (extract_latest_reply_text x).data⟩ : String) =
    extract_latest_reply_text x
  rw [hwdata, h3, ← hwdata]

/-- Closed witness for `claim_C8` at a concrete marker-free body. -/
theorem claim_C8_witness :
    extract_latest_reply_text (extract_latest_reply_text ("Latest reply\n\n\nbody line")) =
      extract_latest_reply_text ("Latest reply\n\n\nbody line") :=
  claim_C8 ("Latest reply\n\n\nbody line") (by decide) (by decide) (by decide)
